import Mathlib

/-!
Verification of the semantic-version (SemVer) parsing and ordering engine of the
HModding/SharedFiles shared utility file.

The JavaScript source defines:
  parseSemver, isValidSemver, comparePrerelease, compareSemver,
  semverGt, semverGte, semverLt, semverLte, semverEq,
  sortSemver, maxSemver, minSemver.

This file gives a shallow embedding of those functions over `List Char` / `String`
and proves the specified properties.  JavaScript numbers obtained from `parseInt`
on digit strings are modelled as exact naturals; JavaScript string relational
operators are modelled as code-point lexicographic order (identical to UTF-16
code-unit order on the basic multilingual plane, which covers every character the
version grammar admits).  Thrown errors are modelled with `Except String`, the
error value carrying the offending version string (the source throws
  new Error with message Invalid semantic version: the offending string).
-/

namespace SharedFiles

/-- The record produced by `parseSemver` (source lines 40-47): major/minor/patch
as parsed integers, prerelease and build as dot-split identifier lists, and the
normalized (trimmed, v-stripped) input in `raw`. -/
structure Version where
  major : Nat
  minor : Nat
  patch : Nat
  prerelease : List String
  build : List String
  raw : String
deriving DecidableEq

/-! ### Character classes of the SemVer regular expression -/

/-- A decimal digit, the regex class backslash-d restricted to ASCII as in the
source pattern. -/
def isDigitChar (c : Char) : Bool := '0' ≤ c && c ≤ '9'

/-- The identifier alphabet of the regex class [0-9a-zA-Z-]. -/
def isIdentChar (c : Char) : Bool :=
  isDigitChar c || ('a' ≤ c && c ≤ 'z') || ('A' ≤ c && c ≤ 'Z') || c = '-'

/-- Matches the regex alternative (0|[1-9][0-9]*): a single zero, or a nonzero
leading digit followed by digits.  Used for MAJOR, MINOR, PATCH and for numeric
pre-release identifiers. -/
def numCore : List Char → Bool
  | [] => false
  | c :: rest => (c = '0' && rest.isEmpty) || (('1' ≤ c && c ≤ '9') && rest.all isDigitChar)

/-- Matches one pre-release identifier of the source regex:
(0|[1-9][0-9]*|[0-9]*[a-zA-Z-][0-9a-zA-Z-]*).  The second alternative is the
set of nonempty identifier-alphabet strings containing at least one non-digit
(split the string at its first non-digit character to recover the regex shape). -/
def preIdOk (s : List Char) : Bool :=
  numCore s || (!s.isEmpty && s.all isIdentChar && s.any (fun c => !isDigitChar c))

/-- Matches one build identifier of the source regex: [0-9a-zA-Z-]+ . -/
def buildIdOk (s : List Char) : Bool := !s.isEmpty && s.all isIdentChar

/-! ### Elementary string machinery (split on a character, break at its first
occurrence), used to express the anchored regex deterministically. -/

/-- Split a character list on every occurrence of `c`; equals the behaviour of
the JavaScript String.prototype.split with a one-character separator.  Always
returns a nonempty list of chunks. -/
def splitOnChar (c : Char) : List Char → List (List Char)
  | [] => [[]]
  | x :: xs =>
    if x = c then [] :: splitOnChar c xs
    else
      match splitOnChar c xs with
      | [] => [[x]]
      | h :: t => (x :: h) :: t

/-- Break a character list at the first occurrence of `c`; `none` when `c` does
not occur. -/
def breakAtFirst (c : Char) : List Char → Option (List Char × List Char)
  | [] => none
  | x :: xs =>
    if x = c then some ([], xs)
    else (breakAtFirst c xs).map (fun p => (x :: p.1, p.2))

/-! ### The anchored SemVer pattern (source line 35)

The source matches the whole cleaned string against
  (0|[1-9]d*).(0|[1-9]d*).(0|[1-9]d*)(-PRE(.PRE)*)?(+B(.B)*)?
anchored at both ends.  Because the plus sign occurs in no character class of
the pattern, a matching string contains a plus sign exactly when the build group
is present, and then its first plus sign is the separator.  Because the
major/minor/patch part contains only digits and dots, a hyphen in the part
before the build separator occurs exactly when the pre-release group is
present, and then its first hyphen is the separator.  The matcher below
decomposes the string deterministically along those two separators and checks
each component, which is equivalent to the anchored regex. -/

/-- Split off the build-metadata part at the first plus sign, when present. -/
def splitBuild (s : List Char) : List Char × Option (List Char) :=
  match breakAtFirst '+' s with
  | none => (s, none)
  | some (a, b) => (a, some b)

/-- Split off the pre-release part at the first hyphen, when present. -/
def splitPre (s : List Char) : List Char × Option (List Char) :=
  match breakAtFirst '-' s with
  | none => (s, none)
  | some (a, b) => (a, some b)

/-- Check the MAJOR.MINOR.PATCH core: exactly three dot-separated components,
each matching (0|[1-9][0-9]*). -/
def checkMMP (m : List Char) : Option (List Char × List Char × List Char) :=
  match splitOnChar '.' m with
  | [a, b, c] => if numCore a && numCore b && numCore c then some (a, b, c) else none
  | _ => none

/-- Check an optional pre-release group: absent group yields the empty
identifier list; a present group must split on dots into valid pre-release
identifiers. -/
def checkPre : Option (List Char) → Option (List (List Char))
  | none => some []
  | some p =>
    let ids := splitOnChar '.' p
    if ids.all preIdOk then some ids else none

/-- Check an optional build group: absent group yields the empty identifier
list; a present group must split on dots into valid build identifiers. -/
def checkBuild : Option (List Char) → Option (List (List Char))
  | none => some []
  | some b =>
    let ids := splitOnChar '.' b
    if ids.all buildIdOk then some ids else none

/-- Full-string match of the SemVer pattern, returning the five capture groups
(major, minor and patch digit strings, pre-release identifiers, build
identifiers); `none` when the string does not match. -/
def semverMatch (s : List Char) : Option (List Char × List Char × List Char × List (List Char) × List (List Char)) :=
  let core := (splitBuild s).1
  let bldPart := (splitBuild s).2
  let mmp := (splitPre core).1
  let prePart := (splitPre core).2
  match checkMMP mmp, checkPre prePart, checkBuild bldPart with
  | some (ma, mi, pa), some pre, some bld => some (ma, mi, pa, pre, bld)
  | _, _, _ => none

/-! ### Preprocessing: trim and strip the optional leading v (source line 32) -/

/-- The characters removed by JavaScript String.prototype.trim (ASCII
whitespace, line terminators, no-break space, BOM; further Unicode space
separators do not occur in the claims and are omitted). -/
def jsWhitespaceChar (c : Char) : Bool :=
  c = ' ' || c = '\t' || c = '\n' || c = '\r' ||
  c = '\x0b' || c = '\x0c' || c = '\u00A0' || c = '\uFEFF'

/-- Model of String.prototype.trim: drop whitespace from both ends. -/
def jsTrim (l : List Char) : List Char :=
  ((l.dropWhile jsWhitespaceChar).reverse.dropWhile jsWhitespaceChar).reverse

/-- Model of replace with the case-insensitive anchored pattern matching one
leading letter v: remove one leading v or V when present. -/
def stripV : List Char → List Char
  | [] => []
  | c :: rest => if c = 'v' || c = 'V' then rest else c :: rest

/-- The cleaned character sequence of an input string: trimmed, one optional
leading v/V stripped. -/
def cleanChars (s : String) : List Char := stripV (jsTrim s.data)

/-! ### parseSemver (source lines 28-48) -/

/-- Value of `parseInt(s, 10)` on a pure digit string, modelled exactly (the
source only applies it to strings the pattern has certified as digit runs). -/
def natOfDigits (l : List Char) : Nat :=
  l.foldl (fun acc c => acc * 10 + (c.toNat - 48)) 0

/-- `parseSemver`: clean the input, match the anchored pattern, and populate
the `Version` record from the capture groups; `none` when the pattern does not
match.  (The non-string early return of the source is modelled by
`parseSemverJS` below.) -/
def parseSemver (version : String) : Option Version :=
  let cleaned := cleanChars version
  match semverMatch cleaned with
  | none => none
  | some (ma, mi, pa, pre, bld) =>
    some { major := natOfDigits ma
           minor := natOfDigits mi
           patch := natOfDigits pa
           prerelease := pre.map (fun l => String.mk l)
           build := bld.map (fun l => String.mk l)
           raw := String.mk cleaned }

/-- Model of the typeof-string guard of the source: `parseSemver` returns null
immediately on any non-string input.  Only the constructors needed by the
claims are carried. -/
inductive JSValue where
  | str (s : String)
  | num (n : Int)
  | boolean (b : Bool)
  | nullValue
  | undefinedValue
deriving DecidableEq

/-- `parseSemver` on an arbitrary JavaScript value (source line 29). -/
def parseSemverJS : JSValue → Option Version
  | JSValue.str s => parseSemver s
  | _ => none

/-- `isValidSemver` (source lines 55-57). -/
def isValidSemver (version : String) : Bool := (parseSemver version).isSome

/-! ### comparePrerelease (source lines 65-104) -/

/-- The test of the regex anchored-digits pattern used on identifiers
(source lines 85-86): nonempty and all digits. -/
def isNumStr (s : String) : Bool := !s.data.isEmpty && s.data.all isDigitChar

/-- `parseInt` on an identifier certified as all digits. -/
def natOfStr (s : String) : Nat := natOfDigits s.data

/-- JavaScript relational comparison of two strings: lexicographic by code
unit.  All identifiers are ASCII so code-point order coincides. -/
def lexLt : List Char → List Char → Bool
  | [], [] => false
  | [], _ :: _ => true
  | _ :: _, [] => false
  | a :: as, b :: bs => if a < b then true else if b < a then false else lexLt as bs

/-- JavaScript string less-than on `String`. -/
def strLt (a b : String) : Bool := lexLt a.data b.data

/-- Outcome of the final lexical-comparison lines of the loop of
`comparePrerelease` (source lines 99-100): return on whichever relational test
fires, 0 (continue) when neither does. -/
def strCmp (a b : String) : Int :=
  if strLt a b then -1 else if strLt b a then 1 else 0

/-- Three-way outcome of the identifier comparison body of the loop of
`comparePrerelease` (source lines 85-100) on two distinct identifiers:
numeric identifier below alphanumeric; two numerics by integer difference,
falling through to the lexical comparison when the difference is zero;
otherwise lexical (ASCII) comparison.  Returns 0 exactly when neither lexical
test fires, in which case the loop of the source continues. -/
def idCmp (a b : String) : Int :=
  if isNumStr a && !isNumStr b then -1
  else if !isNumStr a && isNumStr b then 1
  else if isNumStr a && isNumStr b then
    let d : Int := (natOfStr a : Int) - (natOfStr b : Int)
    if d ≠ 0 then (if d < 0 then -1 else 1)
    else strCmp a b
  else strCmp a b

/-- The position-by-position loop of `comparePrerelease` (source lines 72-103):
an exhausted side loses; equal identifiers continue; otherwise the identifier
comparison decides, and in the (lexically impossible) case where it decides
nothing the loop continues to the next position. -/
def cmpIds : List String → List String → Int
  | [], [] => 0
  | [], _ :: _ => -1
  | _ :: _, [] => 1
  | a :: as, b :: bs =>
    if a = b then cmpIds as bs
    else if idCmp a b = 0 then cmpIds as bs else idCmp a b

/-- `comparePrerelease` (source lines 65-104): empty pre-release outranks
nonempty; two nonempty lists are walked by `cmpIds`. -/
def comparePrerelease (a b : List String) : Int :=
  if a.isEmpty && b.isEmpty then 0
  else if a.isEmpty then 1
  else if b.isEmpty then -1
  else cmpIds a b

/-! ### compareSemver and the boolean wrappers (source lines 124-194) -/

/-- The comparison of two parsed versions performed by `compareSemver` after
both parses succeed (source lines 131-143): major, minor, patch numerically,
then the pre-release walk.  Build metadata is never read. -/
def compareVer (a b : Version) : Int :=
  if a.major ≠ b.major then (if a.major < b.major then -1 else 1)
  else if a.minor ≠ b.minor then (if a.minor < b.minor then -1 else 1)
  else if a.patch ≠ b.patch then (if a.patch < b.patch then -1 else 1)
  else comparePrerelease a.prerelease b.prerelease

/-- `compareSemver` (source lines 124-144): parse both arguments, throwing
(modelled as `Except.error` carrying the offending string) when either parse
fails, the first argument checked first. -/
def compareSemver (a b : String) : Except String Int :=
  match parseSemver a with
  | none => Except.error a
  | some pa =>
    match parseSemver b with
    | none => Except.error b
    | some pb => Except.ok (compareVer pa pb)

/-- `semverGt` (source lines 152-154). -/
def semverGt (a b : String) : Except String Bool :=
  (compareSemver a b).map (fun c => c = 1)

/-- `semverGte` (source lines 162-164). -/
def semverGte (a b : String) : Except String Bool :=
  (compareSemver a b).map (fun c => 0 ≤ c)

/-- `semverLt` (source lines 172-174). -/
def semverLt (a b : String) : Except String Bool :=
  (compareSemver a b).map (fun c => c = -1)

/-- `semverLte` (source lines 182-184). -/
def semverLte (a b : String) : Except String Bool :=
  (compareSemver a b).map (fun c => c ≤ 0)

/-- `semverEq` (source lines 192-194). -/
def semverEq (a b : String) : Except String Bool :=
  (compareSemver a b).map (fun c => c = 0)

/-! ### sortSemver, maxSemver, minSemver (source lines 201-223) -/

/-- The parse of a version string, with an inert default for strings that do
not parse; used only to phrase the sort comparator as a total function (the
sorting branch below is only taken when every element parses). -/
def parsedOr (v : String) : Version :=
  (parseSemver v).getD { major := 0, minor := 0, patch := 0, prerelease := [], build := [], raw := "" }

/-- The comparator value of `compareSemver` on two parsable strings, extended
by the inert default elsewhere. -/
def cmpD (a b : String) : Int := compareVer (parsedOr a) (parsedOr b)

/-- The sort order induced by the comparator: at-most-zero comparator value. -/
def semverLe (a b : String) : Bool := cmpD a b ≤ 0

/-- First element of the list rejected by `parseSemver`, when any. -/
def firstInvalid (vs : List String) : Option String :=
  vs.find? (fun v => (parseSemver v).isNone)

/-- Model of `sortSemver` (source lines 201-203), which copies the array and
sorts it with `compareSemver` as comparator.  JavaScript Array.prototype.sort
never calls the comparator on an array of at most one element, so such arrays
are returned as is even when their element does not parse.  With two or more
elements every element reaches the throwing comparator, so the sort fails when
any element does not parse (which offending element the engine encounters
first is implementation-defined in ECMAScript; this model names the first in
list order).  When every element parses the comparator is consistent, and the
ECMAScript specification then requires the unique stable ascending reordering,
here produced by the stable `List.mergeSort`. -/
def sortSemver (versions : List String) : Except String (List String) :=
  match firstInvalid versions with
  | some e => if versions.length ≤ 1 then Except.ok versions else Except.error e
  | none => Except.ok (versions.mergeSort semverLe)

/-- The argument of `maxSemver`/`minSemver`: the source tests `!versions`,
so null and undefined (and every other falsy value) short-circuit to null.
Only the constructors needed by the claims are carried; the remaining falsy
values behave like `nullInput` under the same test. -/
inductive VersionsInput where
  | arr (versions : List String)
  | nullInput
  | undefinedInput
deriving DecidableEq

/-- The callback-per-element loop of Array.prototype.reduce without an initial
value, specialised to the reducers of the source: the accumulator starts at
the first element, and each later element `v` replaces it when `better v acc`
holds; an error from `better` aborts.  On a one-element array the callback is
never invoked. -/
def reduceBy (better : String → String → Except String Bool) : String → List String → Except String String
  | acc, [] => Except.ok acc
  | acc, v :: rest =>
    match better v acc with
    | Except.error e => Except.error e
    | Except.ok g => reduceBy better (if g then v else acc) rest

/-- `maxSemver` (source lines 210-213): null on a falsy or empty argument,
otherwise the reduction keeping the strictly greater element. -/
def maxSemver : VersionsInput → Except String (Option String)
  | VersionsInput.arr [] => Except.ok none
  | VersionsInput.arr (h :: t) => (reduceBy semverGt h t).map some
  | _ => Except.ok none

/-- `minSemver` (source lines 220-223): null on a falsy or empty argument,
otherwise the reduction keeping the strictly smaller element. -/
def minSemver : VersionsInput → Except String (Option String)
  | VersionsInput.arr [] => Except.ok none
  | VersionsInput.arr (h :: t) => (reduceBy semverLt h t).map some
  | _ => Except.ok none

/-! ### Pure views of the reduction steps (used to state what the reductions
compute when every element parses) -/

/-- The accumulator update of the `maxSemver` reduce callback on parsable
strings: keep the new element exactly when the comparator says it is strictly
greater. -/
def maxStep (m v : String) : String := if cmpD v m = 1 then v else m

/-- The accumulator update of the `minSemver` reduce callback on parsable
strings: keep the new element exactly when the comparator says it is strictly
smaller. -/
def minStep (m v : String) : String := if cmpD v m = -1 then v else m

/-! ### A canonical renderer for the SemVer grammar

Every string accepted by the pattern is recovered by rendering its parsed
components, because the grammar forbids leading zeros; the renderer below
builds that canonical string and is used to state the grammar
characterization and the parse round-trip. -/

/-- The decimal digit character of a value below ten. -/
def digitChar (d : Nat) : Char := Char.ofNat (48 + d)

/-- Decimal notation of a natural number: no leading zeros, a single zero for
zero. -/
def renderNat (n : Nat) : List Char :=
  if n = 0 then ['0'] else (Nat.digits 10 n).reverse.map digitChar

/-- Interleave a separator character between chunks (inverse of
`splitOnChar` on separator-free chunks). -/
def joinSep (c : Char) : List (List Char) → List Char
  | [] => []
  | [x] => x
  | x :: xs => x ++ c :: joinSep c xs

/-- The canonical character sequence of a version with the given components:
MAJOR.MINOR.PATCH, a hyphen-led dot-joined pre-release when nonempty, a
plus-led dot-joined build when nonempty. -/
def renderChars (mj mn pt : Nat) (pre bld : List (List Char)) : List Char :=
  renderNat mj ++ ('.' :: renderNat mn) ++ ('.' :: renderNat pt) ++
    (if pre.isEmpty then [] else '-' :: joinSep '.' pre) ++
    (if bld.isEmpty then [] else '+' :: joinSep '.' bld)

/-- String form of `renderChars` over string identifiers. -/
def renderVersion (mj mn pt : Nat) (pre bld : List String) : String :=
  String.mk (renderChars mj mn pt (pre.map String.data) (bld.map String.data))

/-! ## Properties of the lexicographic string order -/

theorem lexLt_irrefl : ∀ l : List Char, lexLt l l = false
  | [] => rfl
  | a :: as => by
    simp only [lexLt, if_neg (lt_irrefl a)]
    exact lexLt_irrefl as

theorem lexLt_asymm : ∀ {x y : List Char}, lexLt x y = true → lexLt y x = false
  | [], [], h => by simp [lexLt] at h
  | [], _ :: _, _ => by simp [lexLt]
  | _ :: _, [], h => by simp [lexLt] at h
  | a :: as, b :: bs, h => by
    simp only [lexLt] at h ⊢
    rcases lt_trichotomy a b with hab | hab | hab
    · rw [if_neg (asymm hab), if_pos hab]
    · subst hab
      rw [if_neg (lt_irrefl a), if_neg (lt_irrefl a)] at h ⊢
      exact lexLt_asymm h
    · rw [if_neg (asymm hab), if_pos hab] at h
      exact absurd h (by simp)

theorem lexLt_connex : ∀ {x y : List Char}, lexLt x y = false → lexLt y x = false → x = y
  | [], [], _, _ => rfl
  | [], _ :: _, h, _ => by simp [lexLt] at h
  | _ :: _, [], _, h => by simp [lexLt] at h
  | a :: as, b :: bs, h, h2 => by
    simp only [lexLt] at h h2
    rcases lt_trichotomy a b with hab | hab | hab
    · rw [if_pos hab] at h; exact absurd h (by simp)
    · subst hab
      rw [if_neg (lt_irrefl a), if_neg (lt_irrefl a)] at h h2
      rw [lexLt_connex h h2]
    · rw [if_neg (asymm hab), if_pos hab] at h2; exact absurd h2 (by simp)

theorem lexLt_trans : ∀ {x y z : List Char},
    lexLt x y = true → lexLt y z = true → lexLt x z = true
  | [], [], _, h, _ => by simp [lexLt] at h
  | [], _ :: _, [], _, h => by simp [lexLt] at h
  | [], _ :: _, _ :: _, _, _ => by simp [lexLt]
  | _ :: _, [], _, h, _ => by simp [lexLt] at h
  | _ :: _, _ :: _, [], _, h => by simp [lexLt] at h
  | a :: as, b :: bs, c :: cs, h, h2 => by
    simp only [lexLt] at h h2 ⊢
    rcases lt_trichotomy a b with hab | hab | hab
    · rcases lt_trichotomy b c with hbc | hbc | hbc
      · rw [if_pos (lt_trans hab hbc)]
      · subst hbc; rw [if_pos hab]
      · rw [if_neg (asymm hbc), if_pos hbc] at h2; exact absurd h2 (by simp)
    · subst hab
      rcases lt_trichotomy a c with hac | hac | hac
      · rw [if_pos hac]
      · subst hac
        rw [if_neg (lt_irrefl a), if_neg (lt_irrefl a)] at h h2 ⊢
        exact lexLt_trans h h2
      · rw [if_neg (asymm hac), if_pos hac] at h2; exact absurd h2 (by simp)
    · rw [if_neg (asymm hab), if_pos hab] at h; exact absurd h (by simp)

/-- Trichotomy for the string order: distinct strings are strictly comparable. -/
theorem strLt_connex {a b : String} (h : strLt a b = false) (h2 : strLt b a = false) : a = b := by
  cases a; cases b
  simpa using congrArg String.mk (lexLt_connex h h2)

theorem strLt_asymm {a b : String} (h : strLt a b = true) : strLt b a = false :=
  lexLt_asymm h

theorem strLt_trans {a b c : String} (h : strLt a b = true) (h2 : strLt b c = true) :
    strLt a c = true :=
  lexLt_trans h h2

theorem strLt_irrefl (a : String) : strLt a a = false := lexLt_irrefl a.data

/-! ## Properties of the lexical three-way comparison -/

theorem strCmp_self (a : String) : strCmp a a = 0 := by
  simp [strCmp, strLt_irrefl a]

theorem strCmp_eq_zero {a b : String} (h : strCmp a b = 0) : a = b := by
  by_cases h1 : strLt a b = true
  · simp [strCmp, h1] at h
  · by_cases h2 : strLt b a = true
    · simp [strCmp, h1, h2] at h
    · exact strLt_connex (by simpa using h1) (by simpa using h2)

theorem strCmp_anti (a b : String) : strCmp a b = -strCmp b a := by
  by_cases h1 : strLt a b = true
  · simp [strCmp, h1, strLt_asymm h1]
  · by_cases h2 : strLt b a = true
    · simp [strCmp, h1, h2, strLt_asymm h2]
    · simp [strCmp, h1, h2]

theorem strCmp_neg_iff {a b : String} : strCmp a b = -1 ↔ strLt a b = true := by
  constructor
  · intro h
    by_cases h1 : strLt a b = true
    · exact h1
    · by_cases h2 : strLt b a = true
      · simp [strCmp, h1, h2] at h
      · simp [strCmp, h1, h2] at h
  · intro h; simp [strCmp, h]

theorem strCmp_trans {a b c : String} (h : strCmp a b = -1) (h2 : strCmp b c = -1) :
    strCmp a c = -1 :=
  strCmp_neg_iff.mpr (strLt_trans (strCmp_neg_iff.mp h) (strCmp_neg_iff.mp h2))

theorem strCmp_range (a b : String) : strCmp a b = -1 ∨ strCmp a b = 0 ∨ strCmp a b = 1 := by
  unfold strCmp; split_ifs <;> simp

/-! ## Properties of the identifier comparison -/

theorem idCmp_num_alpha {a b : String} (ha : isNumStr a = true) (hb : isNumStr b = false) :
    idCmp a b = -1 := by
  simp [idCmp, ha, hb]

theorem idCmp_alpha_num {a b : String} (ha : isNumStr a = false) (hb : isNumStr b = true) :
    idCmp a b = 1 := by
  simp [idCmp, ha, hb]

theorem idCmp_alpha_alpha {a b : String} (ha : isNumStr a = false) (hb : isNumStr b = false) :
    idCmp a b = strCmp a b := by
  simp [idCmp, ha, hb]

theorem idCmp_num_num {a b : String} (ha : isNumStr a = true) (hb : isNumStr b = true) :
    idCmp a b =
      if natOfStr a < natOfStr b then -1
      else if natOfStr b < natOfStr a then 1
      else strCmp a b := by
  simp only [idCmp, ha, hb, Bool.not_true, Bool.and_false, Bool.false_and, Bool.and_self,
    if_false, if_true, Bool.false_eq_true, Bool.true_and]
  rcases Nat.lt_trichotomy (natOfStr a) (natOfStr b) with h | h | h
  · rw [if_pos (by omega : ((natOfStr a : Int) - natOfStr b) ≠ 0),
      if_pos (by omega : ((natOfStr a : Int) - natOfStr b) < 0), if_pos h]
  · rw [if_neg (by omega : ¬ ((natOfStr a : Int) - natOfStr b) ≠ 0),
      if_neg (by omega : ¬ natOfStr a < natOfStr b),
      if_neg (by omega : ¬ natOfStr b < natOfStr a)]
  · rw [if_pos (by omega : ((natOfStr a : Int) - natOfStr b) ≠ 0),
      if_neg (by omega : ¬ ((natOfStr a : Int) - natOfStr b) < 0),
      if_neg (by omega : ¬ natOfStr a < natOfStr b), if_pos h]

theorem idCmp_self (a : String) : idCmp a a = 0 := by
  cases ha : isNumStr a
  · rw [idCmp_alpha_alpha ha ha, strCmp_self]
  · rw [idCmp_num_num ha ha]
    simp [strCmp_self]

theorem idCmp_eq_zero {a b : String} (h : idCmp a b = 0) : a = b := by
  cases ha : isNumStr a <;> cases hb : isNumStr b
  · rw [idCmp_alpha_alpha ha hb] at h; exact strCmp_eq_zero h
  · rw [idCmp_alpha_num ha hb] at h; exact absurd h (by decide)
  · rw [idCmp_num_alpha ha hb] at h; exact absurd h (by decide)
  · rw [idCmp_num_num ha hb] at h
    rcases Nat.lt_trichotomy (natOfStr a) (natOfStr b) with hn | hn | hn
    · rw [if_pos hn] at h; exact absurd h (by decide)
    · rw [if_neg (by omega), if_neg (by omega)] at h; exact strCmp_eq_zero h
    · rw [if_neg (by omega), if_pos hn] at h; exact absurd h (by decide)

theorem idCmp_anti (a b : String) : idCmp a b = -idCmp b a := by
  cases ha : isNumStr a <;> cases hb : isNumStr b
  · rw [idCmp_alpha_alpha ha hb, idCmp_alpha_alpha hb ha, strCmp_anti]
  · rw [idCmp_alpha_num ha hb, idCmp_num_alpha hb ha]; decide
  · rw [idCmp_num_alpha ha hb, idCmp_alpha_num hb ha]
  · rw [idCmp_num_num ha hb, idCmp_num_num hb ha]
    rcases Nat.lt_trichotomy (natOfStr a) (natOfStr b) with hn | hn | hn
    · rw [if_pos hn, if_neg (by omega), if_pos hn]
    · rw [if_neg (by omega), if_neg (by omega), if_neg (by omega), if_neg (by omega),
        strCmp_anti]
    · rw [if_neg (by omega), if_pos hn, if_pos hn]; decide

theorem idCmp_trans {a b c : String} (h : idCmp a b = -1) (h2 : idCmp b c = -1) :
    idCmp a c = -1 := by
  cases ha : isNumStr a <;> cases hb : isNumStr b <;> cases hc : isNumStr c
  · rw [idCmp_alpha_alpha ha hb] at h
    rw [idCmp_alpha_alpha hb hc] at h2
    rw [idCmp_alpha_alpha ha hc]
    exact strCmp_trans h h2
  · rw [idCmp_alpha_num hb hc] at h2; exact absurd h2 (by decide)
  · rw [idCmp_alpha_num ha hb] at h; exact absurd h (by decide)
  · rw [idCmp_alpha_num ha hb] at h; exact absurd h (by decide)
  · rw [idCmp_num_alpha ha hc]
  · rw [idCmp_num_alpha ha hb] at h
    rw [idCmp_alpha_num hb hc] at h2
    rw [idCmp_num_num ha hc]
    exact absurd h2 (by decide)
  · rw [idCmp_num_alpha ha hc]
  · rw [idCmp_num_num ha hb] at h
    rw [idCmp_num_num hb hc] at h2
    rw [idCmp_num_num ha hc]
    rcases Nat.lt_trichotomy (natOfStr a) (natOfStr b) with hn | hn | hn
    · rcases Nat.lt_trichotomy (natOfStr b) (natOfStr c) with hm | hm | hm
      · rw [if_pos (Nat.lt_trans hn hm)]
      · rw [if_pos (hm ▸ hn)]
      · rw [if_neg (by omega), if_pos hm] at h2; exact absurd h2 (by decide)
    · rw [if_neg (by omega), if_neg (by omega)] at h
      rcases Nat.lt_trichotomy (natOfStr b) (natOfStr c) with hm | hm | hm
      · rw [if_pos (hn ▸ hm)]
      · rw [if_neg (by omega), if_neg (by omega)] at h2
        rw [if_neg (by omega), if_neg (by omega)]
        exact strCmp_trans h h2
      · rw [if_neg (by omega), if_pos hm] at h2; exact absurd h2 (by decide)
    · rw [if_neg (by omega), if_pos hn] at h; exact absurd h (by decide)

theorem idCmp_range (a b : String) : idCmp a b = -1 ∨ idCmp a b = 0 ∨ idCmp a b = 1 := by
  cases ha : isNumStr a <;> cases hb : isNumStr b
  · rw [idCmp_alpha_alpha ha hb]; exact strCmp_range a b
  · rw [idCmp_alpha_num ha hb]; simp
  · rw [idCmp_num_alpha ha hb]; simp
  · rw [idCmp_num_num ha hb]
    rcases Nat.lt_trichotomy (natOfStr a) (natOfStr b) with hn | hn | hn
    · rw [if_pos hn]; simp
    · rw [if_neg (by omega), if_neg (by omega)]; exact strCmp_range a b
    · rw [if_neg (by omega), if_pos hn]; simp

/-! ## Properties of the identifier-sequence walk -/

theorem cmpIds_cons (a b : String) (as bs : List String) :
    cmpIds (a :: as) (b :: bs) = if a = b then cmpIds as bs else idCmp a b := by
  by_cases h : a = b
  · simp [cmpIds, h]
  · have h0 : idCmp a b ≠ 0 := fun hz => h (idCmp_eq_zero hz)
    simp [cmpIds, h, h0]

theorem cmpIds_self : ∀ l : List String, cmpIds l l = 0
  | [] => rfl
  | a :: as => by rw [cmpIds_cons, if_pos rfl, cmpIds_self as]

theorem cmpIds_eq_zero : ∀ {x y : List String}, cmpIds x y = 0 → x = y
  | [], [], _ => rfl
  | [], _ :: _, h => by simp [cmpIds] at h
  | _ :: _, [], h => by simp [cmpIds] at h
  | a :: as, b :: bs, h => by
    rw [cmpIds_cons] at h
    by_cases hab : a = b
    · rw [if_pos hab] at h
      rw [hab, cmpIds_eq_zero h]
    · rw [if_neg hab] at h
      exact absurd (idCmp_eq_zero h) hab

theorem cmpIds_anti : ∀ (x y : List String), cmpIds x y = -cmpIds y x
  | [], [] => rfl
  | [], _ :: _ => rfl
  | _ :: _, [] => rfl
  | a :: as, b :: bs => by
    rw [cmpIds_cons, cmpIds_cons]
    by_cases hab : a = b
    · rw [if_pos hab, if_pos hab.symm, cmpIds_anti as bs]
    · rw [if_neg hab, if_neg (fun h => hab h.symm), idCmp_anti]

theorem cmpIds_trans : ∀ {x y z : List String},
    cmpIds x y = -1 → cmpIds y z = -1 → cmpIds x z = -1
  | [], [], _, h, _ => by simp [cmpIds] at h
  | [], _ :: _, [], _, h2 => by simp [cmpIds] at h2
  | [], _ :: _, _ :: _, _, _ => by simp [cmpIds]
  | _ :: _, [], _, h, _ => by simp [cmpIds] at h
  | _ :: _, _ :: _, [], _, h2 => by simp [cmpIds] at h2
  | a :: as, b :: bs, c :: cs, h, h2 => by
    rw [cmpIds_cons] at h h2
    rw [cmpIds_cons]
    by_cases hab : a = b
    · rw [if_pos hab] at h
      by_cases hbc : b = c
      · rw [if_pos hbc] at h2
        rw [if_pos (hab.trans hbc)]
        exact cmpIds_trans h h2
      · rw [if_neg hbc] at h2
        have hac : a ≠ c := fun h3 => hbc (hab.symm.trans h3)
        rw [if_neg hac, hab]
        exact h2
    · rw [if_neg hab] at h
      by_cases hbc : b = c
      · have hac : a ≠ c := fun h3 => hab (h3.trans hbc.symm)
        rw [if_neg hac, ← hbc]
        exact h
      · rw [if_neg hbc] at h2
        have hac : a ≠ c := by
          intro h3
          subst h3
          have := idCmp_anti a b
          rw [h, h2] at this
          exact absurd this (by decide)
        rw [if_neg hac]
        exact idCmp_trans h h2

theorem cmpIds_range : ∀ (x y : List String), cmpIds x y = -1 ∨ cmpIds x y = 0 ∨ cmpIds x y = 1
  | [], [] => by simp [cmpIds]
  | [], _ :: _ => by simp [cmpIds]
  | _ :: _, [] => by simp [cmpIds]
  | a :: as, b :: bs => by
    rw [cmpIds_cons]
    by_cases hab : a = b
    · rw [if_pos hab]; exact cmpIds_range as bs
    · rw [if_neg hab]; exact idCmp_range a b

/-! ## Properties of comparePrerelease -/

theorem comparePrerelease_self (l : List String) : comparePrerelease l l = 0 := by
  cases l with
  | nil => rfl
  | cons a as => simp [comparePrerelease, cmpIds_self]

theorem comparePrerelease_eq_zero {x y : List String} (h : comparePrerelease x y = 0) :
    x = y := by
  cases x with
  | nil =>
    cases y with
    | nil => rfl
    | cons b bs => simp [comparePrerelease] at h
  | cons a as =>
    cases y with
    | nil => simp [comparePrerelease] at h
    | cons b bs =>
      simp only [comparePrerelease, List.isEmpty_cons, Bool.false_and, Bool.false_eq_true,
        if_false] at h
      exact cmpIds_eq_zero h

theorem comparePrerelease_anti (x y : List String) :
    comparePrerelease x y = -comparePrerelease y x := by
  cases x with
  | nil =>
    cases y with
    | nil => rfl
    | cons b bs => rfl
  | cons a as =>
    cases y with
    | nil => rfl
    | cons b bs =>
      simp only [comparePrerelease, List.isEmpty_cons, Bool.false_and, Bool.false_eq_true,
        if_false]
      exact cmpIds_anti _ _

theorem comparePrerelease_trans {x y z : List String}
    (h : comparePrerelease x y = -1) (h2 : comparePrerelease y z = -1) :
    comparePrerelease x z = -1 := by
  cases x with
  | nil =>
    cases y with
    | nil => simp [comparePrerelease] at h
    | cons b bs => simp [comparePrerelease] at h
  | cons a as =>
    cases y with
    | nil =>
      cases z with
      | nil => exact h
      | cons c cs => simp [comparePrerelease] at h2
    | cons b bs =>
      simp only [comparePrerelease, List.isEmpty_cons, Bool.false_and, Bool.false_eq_true,
        if_false] at h
      cases z with
      | nil => simp [comparePrerelease]
      | cons c cs =>
        simp only [comparePrerelease, List.isEmpty_cons, Bool.false_and, Bool.false_eq_true,
          if_false] at h2 ⊢
        exact cmpIds_trans h h2

theorem comparePrerelease_range (x y : List String) :
    comparePrerelease x y = -1 ∨ comparePrerelease x y = 0 ∨ comparePrerelease x y = 1 := by
  cases x with
  | nil => cases y <;> simp [comparePrerelease]
  | cons a as =>
    cases y with
    | nil => simp [comparePrerelease]
    | cons b bs =>
      simp only [comparePrerelease, List.isEmpty_cons, Bool.false_and, Bool.false_eq_true,
        if_false]
      exact cmpIds_range _ _

/-! ## Properties of the three-way comparison of parsed versions -/

theorem compareVer_self (a : Version) : compareVer a a = 0 := by
  unfold compareVer
  simp [comparePrerelease_self]

theorem compareVer_anti (a b : Version) : compareVer a b = -compareVer b a := by
  unfold compareVer
  split_ifs <;> first | omega | exact comparePrerelease_anti _ _

theorem compareVer_eq_zero {a b : Version} (h : compareVer a b = 0) :
    a.major = b.major ∧ a.minor = b.minor ∧ a.patch = b.patch ∧
      a.prerelease = b.prerelease := by
  by_cases h1 : a.major = b.major
  · by_cases h2 : a.minor = b.minor
    · by_cases h3 : a.patch = b.patch
      · refine ⟨h1, h2, h3, ?_⟩
        unfold compareVer at h
        rw [if_neg (not_not_intro h1), if_neg (not_not_intro h2),
          if_neg (not_not_intro h3)] at h
        exact comparePrerelease_eq_zero h
      · exfalso
        unfold compareVer at h
        rw [if_neg (not_not_intro h1), if_neg (not_not_intro h2), if_pos h3] at h
        split at h <;> omega
    · exfalso
      unfold compareVer at h
      rw [if_neg (not_not_intro h1), if_pos h2] at h
      split at h <;> omega
  · exfalso
    unfold compareVer at h
    rw [if_pos h1] at h
    split at h <;> omega

/-- The comparison returns -1 exactly on the lexicographic less-than of the
(major, minor, patch, prerelease) tuple. -/
theorem compareVer_neg_iff (a b : Version) :
    compareVer a b = -1 ↔
      (a.major < b.major ∨
       (a.major = b.major ∧ a.minor < b.minor) ∨
       (a.major = b.major ∧ a.minor = b.minor ∧ a.patch < b.patch) ∨
       (a.major = b.major ∧ a.minor = b.minor ∧ a.patch = b.patch ∧
         comparePrerelease a.prerelease b.prerelease = -1)) := by
  unfold compareVer
  by_cases h1 : a.major = b.major
  · by_cases h2 : a.minor = b.minor
    · by_cases h3 : a.patch = b.patch
      · rw [if_neg (not_not_intro h1), if_neg (not_not_intro h2), if_neg (not_not_intro h3)]
        constructor
        · intro h
          exact Or.inr (Or.inr (Or.inr ⟨h1, h2, h3, h⟩))
        · rintro (h | ⟨-, h⟩ | ⟨-, -, h⟩ | ⟨-, -, -, h⟩) <;> omega
      · rw [if_neg (not_not_intro h1), if_neg (not_not_intro h2), if_pos h3]
        constructor
        · intro h
          split at h
          · exact Or.inr (Or.inr (Or.inl ⟨h1, h2, by assumption⟩))
          · omega
        · rintro (h | ⟨-, h⟩ | ⟨-, -, h⟩ | ⟨-, -, h4, -⟩) <;>
            first | (exfalso; omega) | rw [if_pos h]
    · rw [if_neg (not_not_intro h1), if_pos h2]
      constructor
      · intro h
        split at h
        · exact Or.inr (Or.inl ⟨h1, by assumption⟩)
        · omega
      · rintro (h | ⟨-, h⟩ | ⟨-, h3, -⟩ | ⟨-, h3, -, -⟩) <;>
          first | (exfalso; omega) | rw [if_pos h]
  · rw [if_pos h1]
    constructor
    · intro h
      split at h
      · exact Or.inl (by assumption)
      · omega
    · rintro (h | ⟨h2, -⟩ | ⟨h2, -, -⟩ | ⟨h2, -, -, -⟩) <;>
        first | (exfalso; omega) | rw [if_pos h]

theorem compareVer_trans {a b c : Version}
    (h : compareVer a b = -1) (h2 : compareVer b c = -1) : compareVer a c = -1 := by
  rcases (compareVer_neg_iff a b).mp h with g | ⟨e1, g⟩ | ⟨e1, e2, g⟩ | ⟨e1, e2, e3, g⟩ <;>
    rcases (compareVer_neg_iff b c).mp h2 with f | ⟨d1, f⟩ | ⟨d1, d2, f⟩ | ⟨d1, d2, d3, f⟩ <;>
    apply (compareVer_neg_iff a c).mpr <;>
    first
      | (left; omega)
      | (right; left; exact ⟨by omega, by omega⟩)
      | (right; right; left; exact ⟨by omega, by omega, by omega⟩)
      | (right; right; right;
         exact ⟨by omega, by omega, by omega, comparePrerelease_trans g f⟩)

theorem compareVer_range (a b : Version) :
    compareVer a b = -1 ∨ compareVer a b = 0 ∨ compareVer a b = 1 := by
  unfold compareVer
  split_ifs <;> first | simp | exact comparePrerelease_range _ _

theorem compareVer_congr_left {a b : Version} (h : compareVer a b = 0) (c : Version) :
    compareVer a c = compareVer b c := by
  obtain ⟨h1, h2, h3, h4⟩ := compareVer_eq_zero h
  unfold compareVer
  rw [h1, h2, h3, h4]

theorem compareVer_congr_right {a b : Version} (h : compareVer a b = 0) (c : Version) :
    compareVer c a = compareVer c b := by
  obtain ⟨h1, h2, h3, h4⟩ := compareVer_eq_zero h
  unfold compareVer
  rw [h1, h2, h3, h4]

/-! ## The induced order on strings used by the sort -/

theorem cmpD_anti (a b : String) : cmpD a b = -cmpD b a := compareVer_anti _ _

theorem cmpD_range (a b : String) : cmpD a b = -1 ∨ cmpD a b = 0 ∨ cmpD a b = 1 :=
  compareVer_range _ _

theorem cmpD_le_trans {a b c : String} (h : cmpD a b ≤ 0) (h2 : cmpD b c ≤ 0) :
    cmpD a c ≤ 0 := by
  rcases cmpD_range a b with hab | hab | hab
  · rcases cmpD_range b c with hbc | hbc | hbc
    · have := compareVer_trans (a := parsedOr a) (b := parsedOr b) (c := parsedOr c) hab hbc
      unfold cmpD
      omega
    · have := compareVer_congr_right (a := parsedOr b) (b := parsedOr c) hbc (parsedOr a)
      unfold cmpD at hab ⊢
      omega
    · omega
  · have := compareVer_congr_left (a := parsedOr a) (b := parsedOr b) hab (parsedOr c)
    unfold cmpD at h2 ⊢
    omega
  · omega

theorem semverLe_trans (a b c : String) (h : semverLe a b = true) (h2 : semverLe b c = true) :
    semverLe a c = true := by
  simp only [semverLe, decide_eq_true_eq] at h h2 ⊢
  exact cmpD_le_trans h h2

theorem semverLe_total (a b : String) : (semverLe a b || semverLe b a) = true := by
  simp only [semverLe, Bool.or_eq_true, decide_eq_true_eq]
  have := cmpD_anti a b
  omega

/-! ## Helper equations for the string-level comparison -/

theorem compareSemver_eq_ok {a b : String} {pa pb : Version}
    (hpa : parseSemver a = some pa) (hpb : parseSemver b = some pb) :
    compareSemver a b = Except.ok (compareVer pa pb) := by
  unfold compareSemver
  rw [hpa, hpb]

theorem compareSemver_err_left {a : String} (b : String) (hpa : parseSemver a = none) :
    compareSemver a b = Except.error a := by
  unfold compareSemver
  rw [hpa]

theorem compareSemver_err_right {a b : String} {pa : Version}
    (hpa : parseSemver a = some pa) (hpb : parseSemver b = none) :
    compareSemver a b = Except.error b := by
  unfold compareSemver
  rw [hpa, hpb]

/-! ## Claim C2 -/

/-- Claim C2: compareSemver is a strict total order on valid version strings:
reflexive as equal (compareSemver a a returns 0), antisymmetric (the result on
swapped arguments is the negation), transitive in the strict -1 sense, and the
result is always exactly one of -1, 0, 1. -/
theorem claim_C2_compareSemver_strict_total_order (a b c : String)
    (ha : (parseSemver a).isSome = true) (hb : (parseSemver b).isSome = true)
    (hc : (parseSemver c).isSome = true) :
    compareSemver a a = Except.ok 0 ∧
    (∀ r, compareSemver a b = Except.ok r → compareSemver b a = Except.ok (-r)) ∧
    (compareSemver a b = Except.ok (-1) → compareSemver b c = Except.ok (-1) →
      compareSemver a c = Except.ok (-1)) ∧
    (∃ r, compareSemver a b = Except.ok r ∧ (r = -1 ∨ r = 0 ∨ r = 1)) := by
  obtain ⟨pa, hpa⟩ := Option.isSome_iff_exists.mp ha
  obtain ⟨pb, hpb⟩ := Option.isSome_iff_exists.mp hb
  obtain ⟨pc, hpc⟩ := Option.isSome_iff_exists.mp hc
  refine ⟨?_, ?_, ?_, ?_⟩
  · rw [compareSemver_eq_ok hpa hpa, compareVer_self]
  · intro r h
    rw [compareSemver_eq_ok hpa hpb] at h
    rw [compareSemver_eq_ok hpb hpa]
    have hr : compareVer pa pb = r := by
      injection h
    rw [compareVer_anti pb pa, ← hr]
  · intro h h2
    rw [compareSemver_eq_ok hpa hpb] at h
    rw [compareSemver_eq_ok hpb hpc] at h2
    rw [compareSemver_eq_ok hpa hpc]
    have hr : compareVer pa pb = -1 := by injection h
    have hr2 : compareVer pb pc = -1 := by injection h2
    rw [compareVer_trans hr hr2]
  · exact ⟨compareVer pa pb, compareSemver_eq_ok hpa hpb, compareVer_range pa pb⟩

/-- Witness for C2 at the concrete valid versions 1.0.0, 2.0.0, 3.0.0. -/
theorem claim_C2_witness :
    (parseSemver "1.0.0").isSome = true ∧
    (compareSemver "1.0.0" "1.0.0" = Except.ok 0 ∧
     (∀ r, compareSemver "1.0.0" "2.0.0" = Except.ok r →
        compareSemver "2.0.0" "1.0.0" = Except.ok (-r)) ∧
     (compareSemver "1.0.0" "2.0.0" = Except.ok (-1) →
        compareSemver "2.0.0" "3.0.0" = Except.ok (-1) →
        compareSemver "1.0.0" "3.0.0" = Except.ok (-1)) ∧
     (∃ r, compareSemver "1.0.0" "2.0.0" = Except.ok r ∧ (r = -1 ∨ r = 0 ∨ r = 1))) :=
  ⟨by decide,
    claim_C2_compareSemver_strict_total_order "1.0.0" "2.0.0" "3.0.0"
      (by decide) (by decide) (by decide)⟩

/-! ## Walking a common prefix of identifier sequences -/

theorem cmpIds_append_left : ∀ (p x y : List String), cmpIds (p ++ x) (p ++ y) = cmpIds x y
  | [], _, _ => rfl
  | a :: p, x, y => by
    rw [List.cons_append, List.cons_append, cmpIds_cons, if_pos rfl,
      cmpIds_append_left p x y]

theorem cmpIds_self_append : ∀ (l r : List String), r ≠ [] → cmpIds l (l ++ r) = -1
  | [], r, hr => by
    cases r with
    | nil => exact absurd rfl hr
    | cons a as => rfl
  | a :: l, r, hr => by
    rw [List.cons_append, cmpIds_cons, if_pos rfl]
    exact cmpIds_self_append l r hr

theorem comparePrerelease_nonempty {a b : List String} (ha : a ≠ []) (hb : b ≠ []) :
    comparePrerelease a b = cmpIds a b := by
  cases a with
  | nil => exact absurd rfl ha
  | cons x xs =>
    cases b with
    | nil => exact absurd rfl hb
    | cons y ys => simp [comparePrerelease]

theorem compareVer_pre {a b : Version} (h1 : a.major = b.major) (h2 : a.minor = b.minor)
    (h3 : a.patch = b.patch) :
    compareVer a b = comparePrerelease a.prerelease b.prerelease := by
  unfold compareVer
  rw [if_neg (not_not_intro h1), if_neg (not_not_intro h2), if_neg (not_not_intro h3)]

/-! ## Claim C3 -/

/-- Claim C3: for parsed versions with equal major, minor and patch the
pre-release tie-break of the source holds: both sequences empty gives 0;
an empty sequence outranks a nonempty one; with equal prefixes the exhausted
(shorter) sequence is less; at the first differing position a purely numeric
identifier is less than an alphanumeric one, two numeric identifiers compare
as integers (beta.2 below beta.11), and two alphanumeric identifiers compare
in ASCII lexical order. -/
theorem claim_C3_prerelease_tiebreak (va vb : Version)
    (h1 : va.major = vb.major) (h2 : va.minor = vb.minor) (h3 : va.patch = vb.patch) :
    (va.prerelease = [] → vb.prerelease = [] → compareVer va vb = 0) ∧
    (va.prerelease = [] → vb.prerelease ≠ [] → compareVer va vb = 1) ∧
    (va.prerelease ≠ [] → vb.prerelease = [] → compareVer va vb = -1) ∧
    (∀ l r, l ≠ [] → r ≠ [] → va.prerelease = l → vb.prerelease = l ++ r →
      compareVer va vb = -1) ∧
    (∀ p x xs y ys, va.prerelease = p ++ x :: xs → vb.prerelease = p ++ y :: ys →
      ((isNumStr x = true → isNumStr y = false → compareVer va vb = -1) ∧
       (isNumStr x = true → isNumStr y = true → natOfStr x < natOfStr y →
          compareVer va vb = -1) ∧
       (isNumStr x = false → isNumStr y = false → strLt x y = true →
          compareVer va vb = -1))) ∧
    compareSemver "1.0.0-beta.2" "1.0.0-beta.11" = Except.ok (-1) := by
  rw [compareVer_pre h1 h2 h3]
  refine ⟨?_, ?_, ?_, ?_, ?_, ?_⟩
  · intro ha hb
    rw [ha, hb]
    rfl
  · intro ha hb
    rw [ha]
    cases hb2 : vb.prerelease with
    | nil => exact absurd hb2 hb
    | cons y ys => rfl
  · intro ha hb
    rw [hb]
    cases ha2 : va.prerelease with
    | nil => exact absurd ha2 ha
    | cons x xs => rfl
  · intro l r hl hr ha hb
    rw [ha, hb, comparePrerelease_nonempty hl (by simp [hl]), cmpIds_self_append l r hr]
  · intro p x xs y ys ha hb
    rw [ha, hb, comparePrerelease_nonempty (by simp) (by simp), cmpIds_append_left]
    refine ⟨?_, ?_, ?_⟩
    · intro hx hy
      have hne : x ≠ y := fun h => by rw [h, hy] at hx; exact absurd hx (by decide)
      rw [cmpIds_cons, if_neg hne, idCmp_num_alpha hx hy]
    · intro hx hy hv
      have hne : x ≠ y := fun h => by rw [h] at hv; exact absurd hv (lt_irrefl _)
      rw [cmpIds_cons, if_neg hne, idCmp_num_num hx hy, if_pos hv]
    · intro hx hy hlt
      have hne : x ≠ y := fun h => by
        rw [h, strLt_irrefl] at hlt
        exact absurd hlt (by decide)
      rw [cmpIds_cons, if_neg hne, idCmp_alpha_alpha hx hy]
      exact strCmp_neg_iff.mpr hlt
  · rfl

/-- Witness for C3: a pre-release is below the release with the same
major.minor.patch. -/
theorem claim_C3_witness :
    (1 : Nat) = 1 ∧
    compareVer
      { major := 1, minor := 0, patch := 0, prerelease := ["alpha"], build := [], raw := "1.0.0-alpha" }
      { major := 1, minor := 0, patch := 0, prerelease := [], build := [], raw := "1.0.0" } = -1 :=
  ⟨rfl,
    (claim_C3_prerelease_tiebreak
      { major := 1, minor := 0, patch := 0, prerelease := ["alpha"], build := [], raw := "1.0.0-alpha" }
      { major := 1, minor := 0, patch := 0, prerelease := [], build := [], raw := "1.0.0" }
      rfl rfl rfl).2.2.1 (by decide) rfl⟩

/-! ## Claim C9 -/

/-- Claim C9: when the pre-release walk meets, at the first differing position,
two purely numeric identifiers with equal integer value but different text, the
integer subtraction is zero and the comparison falls through to the lexical
branch, which decides by ASCII string order. -/
theorem claim_C9_numeric_fallthrough (p : List String) (x y : String)
    (xs ys : List String) (hx : isNumStr x = true) (hy : isNumStr y = true)
    (hv : natOfStr x = natOfStr y) (hne : x ≠ y) :
    comparePrerelease (p ++ x :: xs) (p ++ y :: ys) =
      (if strLt x y = true then -1 else 1) := by
  rw [comparePrerelease_nonempty (by simp) (by simp), cmpIds_append_left,
    cmpIds_cons, if_neg hne, idCmp_num_num hx hy, if_neg (by omega), if_neg (by omega)]
  by_cases h : strLt x y = true
  · rw [if_pos h]
    exact strCmp_neg_iff.mpr h
  · rw [if_neg h]
    have h2 : strLt y x = true := by
      cases h3 : strLt y x with
      | true => rfl
      | false =>
        exact absurd (strLt_connex (by simpa using h) h3) hne
    simp [strCmp, h, h2]

/-- Witness for C9 at the malformed identifiers 01 and 1: equal integer value,
decided lexically (0 below 1 in ASCII). -/
theorem claim_C9_witness :
    isNumStr "01" = true ∧ comparePrerelease ["01"] ["1"] = -1 := by
  refine ⟨by decide, ?_⟩
  have h := claim_C9_numeric_fallthrough [] "01" "1" [] []
    (by decide) (by decide) (by decide) (by decide)
  rwa [if_pos (show strLt "01" "1" = true from by decide)] at h

/-! ## Claim C4 -/

/-- Claim C4: compareSemver compares major, then minor, then patch as integers
with the first unequal component deciding; with all three equal it delegates to
the pre-release comparison; build metadata never participates; the leading v is
stripped and build metadata ignored in the quoted examples. -/
theorem claim_C4_numeric_then_prerelease (a b : String) (pa pb : Version)
    (hpa : parseSemver a = some pa) (hpb : parseSemver b = some pb) :
    (pa.major ≠ pb.major →
      compareSemver a b = Except.ok (if pa.major < pb.major then -1 else 1)) ∧
    (pa.major = pb.major → pa.minor ≠ pb.minor →
      compareSemver a b = Except.ok (if pa.minor < pb.minor then -1 else 1)) ∧
    (pa.major = pb.major → pa.minor = pb.minor → pa.patch ≠ pb.patch →
      compareSemver a b = Except.ok (if pa.patch < pb.patch then -1 else 1)) ∧
    (pa.major = pb.major → pa.minor = pb.minor → pa.patch = pb.patch →
      compareSemver a b = Except.ok (comparePrerelease pa.prerelease pb.prerelease)) ∧
    (∀ b1 b2, compareVer { pa with build := b1 } { pb with build := b2 } =
      compareVer pa pb) ∧
    compareSemver "v1.0.0" "1.0.0" = Except.ok 0 ∧
    compareSemver "1.0.0+x" "1.0.0+y" = Except.ok 0 := by
  refine ⟨?_, ?_, ?_, ?_, ?_, rfl, rfl⟩
  · intro h1
    rw [compareSemver_eq_ok hpa hpb]
    unfold compareVer
    rw [if_pos h1]
  · intro h1 h2
    rw [compareSemver_eq_ok hpa hpb]
    unfold compareVer
    rw [if_neg (not_not_intro h1), if_pos h2]
  · intro h1 h2 h3
    rw [compareSemver_eq_ok hpa hpb]
    unfold compareVer
    rw [if_neg (not_not_intro h1), if_neg (not_not_intro h2), if_pos h3]
  · intro h1 h2 h3
    rw [compareSemver_eq_ok hpa hpb, compareVer_pre h1 h2 h3]
  · intro b1 b2
    rfl

/-- Witness for C4 at 1.0.0 versus 2.0.0: first component decides. -/
theorem claim_C4_witness :
    parseSemver "1.0.0" =
      some { major := 1, minor := 0, patch := 0, prerelease := [], build := [], raw := "1.0.0" } ∧
    compareSemver "1.0.0" "2.0.0" = Except.ok (-1) := by
  refine ⟨by decide, ?_⟩
  have h := (claim_C4_numeric_then_prerelease "1.0.0" "2.0.0"
    { major := 1, minor := 0, patch := 0, prerelease := [], build := [], raw := "1.0.0" }
    { major := 2, minor := 0, patch := 0, prerelease := [], build := [], raw := "2.0.0" }
    (by decide) (by decide)).1 (by decide)
  rwa [if_pos (show (1 : Nat) < 2 from by decide)] at h

/-! ## Claim C10 -/

/-- Claim C10: maxSemver and minSemver return null (modelled as ok none) on a
null or undefined argument just as on an empty array, raising no error, so the
null result does not distinguish a missing collection from an empty one. -/
theorem claim_C10_falsy_input_null :
    maxSemver VersionsInput.nullInput = Except.ok none ∧
    maxSemver VersionsInput.undefinedInput = Except.ok none ∧
    minSemver VersionsInput.nullInput = Except.ok none ∧
    minSemver VersionsInput.undefinedInput = Except.ok none ∧
    maxSemver (VersionsInput.arr []) = Except.ok none ∧
    minSemver (VersionsInput.arr []) = Except.ok none ∧
    maxSemver VersionsInput.nullInput = maxSemver (VersionsInput.arr []) ∧
    minSemver VersionsInput.nullInput = minSemver (VersionsInput.arr []) :=
  ⟨rfl, rfl, rfl, rfl, rfl, rfl, rfl, rfl⟩

/-! ## Claim C1 -/

/-- Counterexample to claim C1: the string abc is rejected by parseSemver, yet
the one-element collection operations return a non-error result containing it:
the sort never invokes its comparator on a single element and the reduction
never invokes its callback on a single element, so no InvalidVersion error is
raised and a result is returned. -/
theorem claim_C1_counterexample :
    parseSemver "abc" = none ∧
    sortSemver ["abc"] = Except.ok ["abc"] ∧
    maxSemver (VersionsInput.arr ["abc"]) = Except.ok (some "abc") ∧
    minSemver (VersionsInput.arr ["abc"]) = Except.ok (some "abc") :=
  ⟨by decide, rfl, rfl, rfl⟩

/-! ### Error propagation of the string-parsing wrappers -/

theorem semverGt_err_left {v : String} (a : String) (hv : parseSemver v = none) :
    semverGt v a = Except.error v := by
  unfold semverGt
  rw [compareSemver_err_left a hv]
  rfl

theorem semverGt_err_right {v a : String} {pv : Version} (hv : parseSemver v = some pv)
    (ha : parseSemver a = none) : semverGt v a = Except.error a := by
  unfold semverGt
  rw [compareSemver_err_right hv ha]
  rfl

theorem semverGt_ok {v a : String} {pv pa : Version} (hv : parseSemver v = some pv)
    (ha : parseSemver a = some pa) :
    semverGt v a = Except.ok (decide (compareVer pv pa = 1)) := by
  unfold semverGt
  rw [compareSemver_eq_ok hv ha]
  rfl

theorem semverLt_err_left {v : String} (a : String) (hv : parseSemver v = none) :
    semverLt v a = Except.error v := by
  unfold semverLt
  rw [compareSemver_err_left a hv]
  rfl

theorem semverLt_err_right {v a : String} {pv : Version} (hv : parseSemver v = some pv)
    (ha : parseSemver a = none) : semverLt v a = Except.error a := by
  unfold semverLt
  rw [compareSemver_err_right hv ha]
  rfl

theorem semverLt_ok {v a : String} {pv pa : Version} (hv : parseSemver v = some pv)
    (ha : parseSemver a = some pa) :
    semverLt v a = Except.ok (decide (compareVer pv pa = -1)) := by
  unfold semverLt
  rw [compareSemver_eq_ok hv ha]
  rfl

/-- A reduction over two or more elements with a comparator-backed callback
fails on the first unparsable element it meets, naming an unparsable element of
the collection. -/
theorem reduceBy_error (better : String → String → Except String Bool)
    (herr1 : ∀ v a, parseSemver v = none → better v a = Except.error v)
    (herr2 : ∀ v a pv, parseSemver v = some pv → parseSemver a = none →
      better v a = Except.error a)
    (hok : ∀ v a pv pa, parseSemver v = some pv → parseSemver a = some pa →
      ∃ g, better v a = Except.ok g) :
    ∀ (t : List String) (acc : String), t ≠ [] →
      (∃ x ∈ acc :: t, parseSemver x = none) →
      ∃ e ∈ acc :: t, parseSemver e = none ∧ reduceBy better acc t = Except.error e
  | [], acc, ht, _ => absurd rfl ht
  | v :: rest, acc, _, hex => by
    cases hv : parseSemver v with
    | none =>
      refine ⟨v, by simp, hv, ?_⟩
      unfold reduceBy
      rw [herr1 v acc hv]
    | some pv =>
      cases hacc : parseSemver acc with
      | none =>
        refine ⟨acc, by simp, hacc, ?_⟩
        unfold reduceBy
        rw [herr2 v acc pv hv hacc]
      | some pacc =>
        obtain ⟨x, hx, hxnone⟩ := hex
        have hxrest : x ∈ rest := by
          rcases List.mem_cons.mp hx with h | h
          · rw [h] at hxnone
            rw [hacc] at hxnone
            exact absurd hxnone (by simp)
          · rcases List.mem_cons.mp h with h2 | h2
            · rw [h2] at hxnone
              rw [hv] at hxnone
              exact absurd hxnone (by simp)
            · exact h2
        have hrest : rest ≠ [] := by
          intro h
          rw [h] at hxrest
          exact absurd hxrest (List.not_mem_nil x)
        cases hbet : better v acc with
        | error e =>
          exfalso
          obtain ⟨g, hg⟩ := hok v acc pv pacc hv hacc
          rw [hbet] at hg
          exact absurd hg (by simp)
        | ok g =>
          have acc2mem : (if g = true then v else acc) = v ∨
              (if g = true then v else acc) = acc := by
            by_cases hg : g = true
            · exact Or.inl (if_pos hg)
            · exact Or.inr (if_neg hg)
          obtain ⟨e, he, henone, heq⟩ :=
            reduceBy_error better herr1 herr2 hok rest (if g = true then v else acc) hrest
              ⟨x, by simp [hxrest], hxnone⟩
          refine ⟨e, ?_, henone, ?_⟩
          · rcases List.mem_cons.mp he with h | h
            · rcases acc2mem with h2 | h2 <;> rw [h2] at h <;> simp [h]
            · simp [h]
          · unfold reduceBy
            rw [hbet]
            exact heq

theorem firstInvalid_spec {vs : List String} (hinv : ∃ x ∈ vs, parseSemver x = none) :
    ∃ e, firstInvalid vs = some e ∧ e ∈ vs ∧ parseSemver e = none := by
  cases hf : firstInvalid vs with
  | none =>
    exfalso
    obtain ⟨x, hx, hxnone⟩ := hinv
    have := List.find?_eq_none.mp hf x hx
    rw [hxnone] at this
    exact this rfl
  | some e =>
    refine ⟨e, rfl, List.mem_of_find?_eq_some hf, ?_⟩
    have := List.find?_some hf
    exact Option.isNone_iff_eq_none.mp (by simpa using this)

/-- Claim C1, amended: with two or more elements, an unparsable element makes
sortSemver, maxSemver and minSemver fail with the error naming an unparsable
element of the input, and no result is returned; a one-element collection is
returned without any validation (see the counterexample). -/
theorem claim_C1_amended_wrappers_fail (vs : List String) (hlen : 2 ≤ vs.length)
    (hinv : ∃ x ∈ vs, parseSemver x = none) :
    (∃ e ∈ vs, parseSemver e = none ∧ sortSemver vs = Except.error e) ∧
    (∃ e ∈ vs, parseSemver e = none ∧
      maxSemver (VersionsInput.arr vs) = Except.error e) ∧
    (∃ e ∈ vs, parseSemver e = none ∧
      minSemver (VersionsInput.arr vs) = Except.error e) := by
  refine ⟨?_, ?_, ?_⟩
  · obtain ⟨e, hf, he, henone⟩ := firstInvalid_spec hinv
    refine ⟨e, he, henone, ?_⟩
    unfold sortSemver
    rw [hf]
    show (if vs.length ≤ 1 then Except.ok vs else Except.error e) = Except.error e
    rw [if_neg (by omega)]
  · cases vs with
    | nil => simp at hlen
    | cons h t =>
      have ht : t ≠ [] := by
        intro h2
        rw [h2] at hlen
        simp at hlen
      obtain ⟨e, he, henone, heq⟩ :=
        reduceBy_error semverGt
          (fun v a hv => semverGt_err_left a hv)
          (fun v a pv hv ha => semverGt_err_right hv ha)
          (fun v a pv pa hv ha => ⟨_, semverGt_ok hv ha⟩)
          t h ht hinv
      refine ⟨e, he, henone, ?_⟩
      show Except.map some (reduceBy semverGt h t) = Except.error e
      rw [heq]
      rfl
  · cases vs with
    | nil => simp at hlen
    | cons h t =>
      have ht : t ≠ [] := by
        intro h2
        rw [h2] at hlen
        simp at hlen
      obtain ⟨e, he, henone, heq⟩ :=
        reduceBy_error semverLt
          (fun v a hv => semverLt_err_left a hv)
          (fun v a pv hv ha => semverLt_err_right hv ha)
          (fun v a pv pa hv ha => ⟨_, semverLt_ok hv ha⟩)
          t h ht hinv
      refine ⟨e, he, henone, ?_⟩
      show Except.map some (reduceBy semverLt h t) = Except.error e
      rw [heq]
      rfl

/-- Witness for the amended C1 at the two-element collection 1.0.0, abc. -/
theorem claim_C1_amended_witness :
    2 ≤ (["1.0.0", "abc"] : List String).length ∧
    ((∃ e ∈ ["1.0.0", "abc"], parseSemver e = none ∧
        sortSemver ["1.0.0", "abc"] = Except.error e) ∧
     (∃ e ∈ ["1.0.0", "abc"], parseSemver e = none ∧
        maxSemver (VersionsInput.arr ["1.0.0", "abc"]) = Except.error e) ∧
     (∃ e ∈ ["1.0.0", "abc"], parseSemver e = none ∧
        minSemver (VersionsInput.arr ["1.0.0", "abc"]) = Except.error e)) :=
  ⟨by decide,
    claim_C1_amended_wrappers_fail ["1.0.0", "abc"] (by decide)
      ⟨"abc", by decide, by decide⟩⟩

/-! ## Claim C7 -/

theorem parsedOr_eq {v : String} {pv : Version} (h : parseSemver v = some pv) :
    parsedOr v = pv := by
  unfold parsedOr
  rw [h]
  rfl

theorem cmpD_eq_compareVer {a b : String} {pa pb : Version}
    (ha : parseSemver a = some pa) (hb : parseSemver b = some pb) :
    cmpD a b = compareVer pa pb := by
  unfold cmpD
  rw [parsedOr_eq ha, parsedOr_eq hb]

theorem compareSemver_eq_cmpD {a b : String} {pa pb : Version}
    (ha : parseSemver a = some pa) (hb : parseSemver b = some pb) :
    compareSemver a b = Except.ok (cmpD a b) := by
  rw [compareSemver_eq_ok ha hb, cmpD_eq_compareVer ha hb]

theorem pairwise_imp_mem {α : Type} {R S : α → α → Prop} :
    ∀ {l : List α}, (∀ a b, a ∈ l → b ∈ l → R a b → S a b) → l.Pairwise R → l.Pairwise S
  | [], _, _ => List.Pairwise.nil
  | a :: t, H, h => by
    rcases List.pairwise_cons.mp h with ⟨h1, h2⟩
    refine List.pairwise_cons.mpr ⟨?_, ?_⟩
    · intro b hb
      exact H a b (by simp) (by simp [hb]) (h1 b hb)
    · exact pairwise_imp_mem (fun x y hx hy => H x y (by simp [hx]) (by simp [hy])) h2

unseal List.merge List.mergeSort in
theorem sortSemver_concrete :
    sortSemver ["1.2.0", "1.0.0", "1.1.0"] = Except.ok ["1.0.0", "1.1.0", "1.2.0"] := rfl

/-- Claim C7: on an array of valid version strings, sortSemver succeeds with a
stable ascending permutation of the input under compareSemver (the model is
pure, so the input collection is left unchanged by construction), matching the
quoted example. -/
theorem claim_C7_sort_stable_ascending (vs : List String)
    (hv : ∀ v ∈ vs, (parseSemver v).isSome = true) :
    (∃ out, sortSemver vs = Except.ok out ∧
      out.Perm vs ∧
      out.Pairwise (fun x y => ∃ r, compareSemver x y = Except.ok r ∧ r ≤ 0) ∧
      (∀ x y, List.Sublist [x, y] vs → cmpD x y ≤ 0 → List.Sublist [x, y] out)) ∧
    sortSemver ["1.2.0", "1.0.0", "1.1.0"] = Except.ok ["1.0.0", "1.1.0", "1.2.0"] := by
  refine ⟨?_, sortSemver_concrete⟩
  have hfi : firstInvalid vs = none := by
    apply List.find?_eq_none.mpr
    intro x hx
    have h := hv x hx
    intro h2
    rw [Option.isNone_iff_eq_none.mp h2] at h
    exact absurd h (by simp)
  refine ⟨vs.mergeSort semverLe, ?_, List.mergeSort_perm vs semverLe, ?_, ?_⟩
  · unfold sortSemver
    rw [hfi]
  · have hp := List.sorted_mergeSort semverLe_trans semverLe_total vs
    refine pairwise_imp_mem ?_ hp
    intro x y hx hy hxy
    have hxv := hv x ((List.mem_mergeSort).mp hx)
    have hyv := hv y ((List.mem_mergeSort).mp hy)
    obtain ⟨px, hpx⟩ := Option.isSome_iff_exists.mp hxv
    obtain ⟨py, hpy⟩ := Option.isSome_iff_exists.mp hyv
    refine ⟨cmpD x y, compareSemver_eq_cmpD hpx hpy, ?_⟩
    simpa [semverLe] using hxy
  · intro x y hsub hle
    exact List.pair_sublist_mergeSort semverLe_trans semverLe_total
      (by simp [semverLe, hle]) hsub

/-- Witness for C7 at the quoted three-element example. -/
theorem claim_C7_witness :
    (∀ v ∈ ["1.2.0", "1.0.0", "1.1.0"], (parseSemver v).isSome = true) ∧
    ((∃ out, sortSemver ["1.2.0", "1.0.0", "1.1.0"] = Except.ok out ∧
       out.Perm ["1.2.0", "1.0.0", "1.1.0"] ∧
       out.Pairwise (fun x y => ∃ r, compareSemver x y = Except.ok r ∧ r ≤ 0) ∧
       (∀ x y, List.Sublist [x, y] ["1.2.0", "1.0.0", "1.1.0"] → cmpD x y ≤ 0 → List.Sublist [x, y] out)) ∧
     sortSemver ["1.2.0", "1.0.0", "1.1.0"] = Except.ok ["1.0.0", "1.1.0", "1.2.0"]) :=
  ⟨by decide, claim_C7_sort_stable_ascending ["1.2.0", "1.0.0", "1.1.0"] (by decide)⟩

/-! ## Claim C8 -/

theorem cmpD_self (a : String) : cmpD a a = 0 := compareVer_self _

theorem cmpD_lt_of_lt_of_le {a b c : String} (h : cmpD a b = -1) (h2 : cmpD b c ≤ 0) :
    cmpD a c = -1 := by
  rcases cmpD_range b c with hbc | hbc | hbc
  · exact compareVer_trans h hbc
  · have := compareVer_congr_right (a := parsedOr b) (b := parsedOr c) hbc (parsedOr a)
    unfold cmpD at h ⊢
    omega
  · omega

theorem cmpD_lt_of_le_of_lt {a b c : String} (h : cmpD a b ≤ 0) (h2 : cmpD b c = -1) :
    cmpD a c = -1 := by
  rcases cmpD_range a b with hab | hab | hab
  · exact compareVer_trans hab h2
  · have := compareVer_congr_left (a := parsedOr a) (b := parsedOr b) hab (parsedOr c)
    unfold cmpD at h2 ⊢
    omega
  · omega

theorem cmpD_gt_of_ge_of_gt {a b c : String} (h : 0 ≤ cmpD a b) (h2 : cmpD b c = 1) :
    cmpD a c = 1 := by
  have ha := cmpD_anti b a
  have hb := cmpD_anti c b
  have hc := cmpD_anti c a
  have : cmpD c a = -1 :=
    cmpD_lt_of_lt_of_le (a := c) (b := b) (c := a) (by omega) (by omega)
  omega

theorem cmpD_gt_of_gt_of_ge {a b c : String} (h : cmpD a b = 1) (h2 : 0 ≤ cmpD b c) :
    cmpD a c = 1 := by
  have ha := cmpD_anti b a
  have hb := cmpD_anti c b
  have hc := cmpD_anti c a
  have : cmpD c a = -1 :=
    cmpD_lt_of_le_of_lt (a := c) (b := b) (c := a) (by omega) (by omega)
  omega

/-- The left-to-right maximum fold returns the earliest-encountered maximal
element: the list splits around the result, everything strictly before it is
strictly below it, and nothing anywhere is above it. -/
theorem foldMax_split : ∀ (t : List String) (acc : String),
    ∃ l1 l2,
      acc :: t = l1 ++ (t.foldl maxStep acc) :: l2 ∧
      (∀ x ∈ l1, cmpD x (t.foldl maxStep acc) = -1) ∧
      (∀ x ∈ acc :: t, cmpD x (t.foldl maxStep acc) ≤ 0)
  | [], acc => by
    refine ⟨[], [], rfl, by simp, ?_⟩
    intro x hx
    rw [List.mem_singleton.mp hx]
    simp [cmpD_self]
  | v :: rest, acc => by
    have hfold : (v :: rest).foldl maxStep acc = rest.foldl maxStep (maxStep acc v) := rfl
    obtain ⟨l1, l2, hsplit, hl1, hall⟩ := foldMax_split rest (maxStep acc v)
    rw [hfold]
    by_cases h : cmpD v acc = 1
    · have hacc2 : maxStep acc v = v := if_pos h
      rw [hacc2] at hsplit hl1 hall ⊢
      have hvr : cmpD v (rest.foldl maxStep v) ≤ 0 := hall v (by simp)
      have haccv : cmpD acc v = -1 := by
        have := cmpD_anti v acc
        omega
      refine ⟨acc :: l1, l2, ?_, ?_, ?_⟩
      · rw [List.cons_append, ← hsplit]
      · intro x hx
        rcases List.mem_cons.mp hx with hx | hx
        · rw [hx]
          exact cmpD_lt_of_lt_of_le haccv hvr
        · exact hl1 x hx
      · intro x hx
        rcases List.mem_cons.mp hx with hx | hx
        · rw [hx]
          have := cmpD_lt_of_lt_of_le haccv hvr
          omega
        · exact hall x hx
    · have hacc2 : maxStep acc v = acc := if_neg h
      rw [hacc2] at hsplit hl1 hall ⊢
      have hvacc : cmpD v acc ≤ 0 := by
        rcases cmpD_range v acc with h2 | h2 | h2 <;> omega
      cases l1 with
      | nil =>
        have hr : acc = rest.foldl maxStep acc := by
          have := hsplit
          rw [List.nil_append] at this
          exact (List.cons.injEq _ _ _ _).mp this |>.1
        refine ⟨[], v :: rest, ?_, by simp, ?_⟩
        · rw [List.nil_append, ← hr]
        · intro x hx
          rcases List.mem_cons.mp hx with hx | hx
          · rw [hx]
            exact hall acc (by simp)
          · rcases List.mem_cons.mp hx with hx | hx
            · rw [hx, ← hr]
              exact hvacc
            · exact hall x (by simp [hx])
      | cons a1 l1t =>
        have h1 : a1 = acc := by
          have := hsplit
          rw [List.cons_append] at this
          exact ((List.cons.injEq _ _ _ _).mp this).1.symm
        have h2 : rest = l1t ++ (rest.foldl maxStep acc) :: l2 := by
          have := hsplit
          rw [List.cons_append] at this
          exact ((List.cons.injEq _ _ _ _).mp this).2
        have haccr : cmpD acc (rest.foldl maxStep acc) = -1 := by
          have := hl1 a1 (by simp)
          rwa [h1] at this
        refine ⟨acc :: v :: l1t, l2, ?_, ?_, ?_⟩
        · rw [List.cons_append, List.cons_append, ← h2]
        · intro x hx
          rcases List.mem_cons.mp hx with hx | hx
          · rw [hx]
            exact haccr
          · rcases List.mem_cons.mp hx with hx | hx
            · rw [hx]
              exact cmpD_lt_of_le_of_lt hvacc haccr
            · exact hl1 x (by simp [hx, h1])
        · intro x hx
          rcases List.mem_cons.mp hx with hx | hx
          · rw [hx]
            exact hall acc (by simp)
          · rcases List.mem_cons.mp hx with hx | hx
            · rw [hx]
              have := cmpD_lt_of_le_of_lt hvacc haccr
              omega
            · exact hall x (by simp [hx])

/-- The left-to-right minimum fold returns the earliest-encountered minimal
element. -/
theorem foldMin_split : ∀ (t : List String) (acc : String),
    ∃ l1 l2,
      acc :: t = l1 ++ (t.foldl minStep acc) :: l2 ∧
      (∀ x ∈ l1, cmpD x (t.foldl minStep acc) = 1) ∧
      (∀ x ∈ acc :: t, 0 ≤ cmpD x (t.foldl minStep acc))
  | [], acc => by
    refine ⟨[], [], rfl, by simp, ?_⟩
    intro x hx
    rw [List.mem_singleton.mp hx]
    simp [cmpD_self]
  | v :: rest, acc => by
    have hfold : (v :: rest).foldl minStep acc = rest.foldl minStep (minStep acc v) := rfl
    obtain ⟨l1, l2, hsplit, hl1, hall⟩ := foldMin_split rest (minStep acc v)
    rw [hfold]
    by_cases h : cmpD v acc = -1
    · have hacc2 : minStep acc v = v := if_pos h
      rw [hacc2] at hsplit hl1 hall ⊢
      have hvr : 0 ≤ cmpD v (rest.foldl minStep v) := hall v (by simp)
      have haccv : cmpD acc v = 1 := by
        have := cmpD_anti v acc
        omega
      refine ⟨acc :: l1, l2, ?_, ?_, ?_⟩
      · rw [List.cons_append, ← hsplit]
      · intro x hx
        rcases List.mem_cons.mp hx with hx | hx
        · rw [hx]
          exact cmpD_gt_of_gt_of_ge haccv hvr
        · exact hl1 x hx
      · intro x hx
        rcases List.mem_cons.mp hx with hx | hx
        · rw [hx]
          have := cmpD_gt_of_gt_of_ge haccv hvr
          omega
        · exact hall x hx
    · have hacc2 : minStep acc v = acc := if_neg h
      rw [hacc2] at hsplit hl1 hall ⊢
      have hvacc : 0 ≤ cmpD v acc := by
        rcases cmpD_range v acc with h2 | h2 | h2 <;> omega
      cases l1 with
      | nil =>
        have hr : acc = rest.foldl minStep acc := by
          have := hsplit
          rw [List.nil_append] at this
          exact (List.cons.injEq _ _ _ _).mp this |>.1
        refine ⟨[], v :: rest, ?_, by simp, ?_⟩
        · rw [List.nil_append, ← hr]
        · intro x hx
          rcases List.mem_cons.mp hx with hx | hx
          · rw [hx]
            exact hall acc (by simp)
          · rcases List.mem_cons.mp hx with hx | hx
            · rw [hx, ← hr]
              exact hvacc
            · exact hall x (by simp [hx])
      | cons a1 l1t =>
        have h1 : a1 = acc := by
          have := hsplit
          rw [List.cons_append] at this
          exact ((List.cons.injEq _ _ _ _).mp this).1.symm
        have h2 : rest = l1t ++ (rest.foldl minStep acc) :: l2 := by
          have := hsplit
          rw [List.cons_append] at this
          exact ((List.cons.injEq _ _ _ _).mp this).2
        have haccr : cmpD acc (rest.foldl minStep acc) = 1 := by
          have := hl1 a1 (by simp)
          rwa [h1] at this
        refine ⟨acc :: v :: l1t, l2, ?_, ?_, ?_⟩
        · rw [List.cons_append, List.cons_append, ← h2]
        · intro x hx
          rcases List.mem_cons.mp hx with hx | hx
          · rw [hx]
            exact haccr
          · rcases List.mem_cons.mp hx with hx | hx
            · rw [hx]
              exact cmpD_gt_of_ge_of_gt hvacc haccr
            · exact hl1 x (by simp [hx, h1])
        · intro x hx
          rcases List.mem_cons.mp hx with hx | hx
          · rw [hx]
            exact hall acc (by simp)
          · rcases List.mem_cons.mp hx with hx | hx
            · rw [hx]
              have := cmpD_gt_of_ge_of_gt hvacc haccr
              omega
            · exact hall x (by simp [hx])

/-- On parsable elements the `maxSemver` reduction is the pure left fold with
`maxStep`. -/
theorem reduceBy_gt_ok : ∀ (t : List String) (acc : String),
    (∀ v ∈ acc :: t, (parseSemver v).isSome = true) →
    reduceBy semverGt acc t = Except.ok (t.foldl maxStep acc)
  | [], acc, _ => rfl
  | v :: rest, acc, hv => by
    obtain ⟨pv, hpv⟩ := Option.isSome_iff_exists.mp (hv v (by simp))
    obtain ⟨pacc, hpacc⟩ := Option.isSome_iff_exists.mp (hv acc (by simp))
    unfold reduceBy
    rw [semverGt_ok hpv hpacc]
    show reduceBy semverGt (if decide (compareVer pv pacc = 1) = true then v else acc) rest =
      Except.ok (List.foldl maxStep (maxStep acc v) rest)
    have hstep : (if decide (compareVer pv pacc = 1) = true then v else acc) = maxStep acc v := by
      unfold maxStep
      rw [cmpD_eq_compareVer hpv hpacc]
      simp only [decide_eq_true_eq]
    rw [hstep]
    apply reduceBy_gt_ok rest (maxStep acc v)
    intro x hx
    rcases List.mem_cons.mp hx with hx | hx
    · rw [hx]
      unfold maxStep
      by_cases hc : cmpD v acc = 1
      · rw [if_pos hc]
        exact hv v (by simp)
      · rw [if_neg hc]
        exact hv acc (by simp)
    · exact hv x (by simp [hx])

/-- On parsable elements the `minSemver` reduction is the pure left fold with
`minStep`. -/
theorem reduceBy_lt_ok : ∀ (t : List String) (acc : String),
    (∀ v ∈ acc :: t, (parseSemver v).isSome = true) →
    reduceBy semverLt acc t = Except.ok (t.foldl minStep acc)
  | [], acc, _ => rfl
  | v :: rest, acc, hv => by
    obtain ⟨pv, hpv⟩ := Option.isSome_iff_exists.mp (hv v (by simp))
    obtain ⟨pacc, hpacc⟩ := Option.isSome_iff_exists.mp (hv acc (by simp))
    unfold reduceBy
    rw [semverLt_ok hpv hpacc]
    show reduceBy semverLt (if decide (compareVer pv pacc = -1) = true then v else acc) rest =
      Except.ok (List.foldl minStep (minStep acc v) rest)
    have hstep : (if decide (compareVer pv pacc = -1) = true then v else acc) = minStep acc v := by
      unfold minStep
      rw [cmpD_eq_compareVer hpv hpacc]
      simp only [decide_eq_true_eq]
    rw [hstep]
    apply reduceBy_lt_ok rest (minStep acc v)
    intro x hx
    rcases List.mem_cons.mp hx with hx | hx
    · rw [hx]
      unfold minStep
      by_cases hc : cmpD v acc = -1
      · rw [if_pos hc]
        exact hv v (by simp)
      · rw [if_neg hc]
        exact hv acc (by simp)
    · exact hv x (by simp [hx])

/-- Claim C8: maxSemver and minSemver return null on an empty array, and on a
nonempty array of parsable version strings each equals the single
left-to-right reduction with the strict greater/less test, so the
earliest-encountered maximal (resp. minimal) element is returned: the result
splits the array with every earlier element strictly below (resp. above) it
and no element beyond it. -/
theorem claim_C8_max_min_reduction (vs : List String)
    (hv : ∀ v ∈ vs, (parseSemver v).isSome = true) :
    maxSemver (VersionsInput.arr []) = Except.ok none ∧
    minSemver (VersionsInput.arr []) = Except.ok none ∧
    (∀ h t, vs = h :: t →
      maxSemver (VersionsInput.arr vs) = Except.ok (some (t.foldl maxStep h)) ∧
      minSemver (VersionsInput.arr vs) = Except.ok (some (t.foldl minStep h))) ∧
    (vs ≠ [] → ∃ m l1 l2,
      maxSemver (VersionsInput.arr vs) = Except.ok (some m) ∧
      vs = l1 ++ m :: l2 ∧ (∀ x ∈ l1, cmpD x m = -1) ∧ (∀ x ∈ vs, cmpD x m ≤ 0)) ∧
    (vs ≠ [] → ∃ m l1 l2,
      minSemver (VersionsInput.arr vs) = Except.ok (some m) ∧
      vs = l1 ++ m :: l2 ∧ (∀ x ∈ l1, cmpD x m = 1) ∧ (∀ x ∈ vs, 0 ≤ cmpD x m)) := by
  refine ⟨rfl, rfl, ?_, ?_, ?_⟩
  · intro h t hvs
    subst hvs
    constructor
    · show Except.map some (reduceBy semverGt h t) = Except.ok (some (t.foldl maxStep h))
      rw [reduceBy_gt_ok t h hv]
      rfl
    · show Except.map some (reduceBy semverLt h t) = Except.ok (some (t.foldl minStep h))
      rw [reduceBy_lt_ok t h hv]
      rfl
  · intro hne
    cases vs with
    | nil => exact absurd rfl hne
    | cons h t =>
      obtain ⟨l1, l2, hsplit, hl1, hall⟩ := foldMax_split t h
      refine ⟨t.foldl maxStep h, l1, l2, ?_, hsplit, hl1, hall⟩
      show Except.map some (reduceBy semverGt h t) = Except.ok (some (t.foldl maxStep h))
      rw [reduceBy_gt_ok t h hv]
      rfl
  · intro hne
    cases vs with
    | nil => exact absurd rfl hne
    | cons h t =>
      obtain ⟨l1, l2, hsplit, hl1, hall⟩ := foldMin_split t h
      refine ⟨t.foldl minStep h, l1, l2, ?_, hsplit, hl1, hall⟩
      show Except.map some (reduceBy semverLt h t) = Except.ok (some (t.foldl minStep h))
      rw [reduceBy_lt_ok t h hv]
      rfl

/-- Witness for C8 at the two-element collection 2.0.0, 1.0.0. -/
theorem claim_C8_witness :
    (∀ v ∈ ["2.0.0", "1.0.0"], (parseSemver v).isSome = true) ∧
    (maxSemver (VersionsInput.arr []) = Except.ok none ∧
     minSemver (VersionsInput.arr []) = Except.ok none ∧
     (∀ h t, ["2.0.0", "1.0.0"] = h :: t →
       maxSemver (VersionsInput.arr ["2.0.0", "1.0.0"]) =
         Except.ok (some (t.foldl maxStep h)) ∧
       minSemver (VersionsInput.arr ["2.0.0", "1.0.0"]) =
         Except.ok (some (t.foldl minStep h))) ∧
     ((["2.0.0", "1.0.0"] : List String) ≠ [] → ∃ m l1 l2,
       maxSemver (VersionsInput.arr ["2.0.0", "1.0.0"]) = Except.ok (some m) ∧
       ["2.0.0", "1.0.0"] = l1 ++ m :: l2 ∧ (∀ x ∈ l1, cmpD x m = -1) ∧
       (∀ x ∈ ["2.0.0", "1.0.0"], cmpD x m ≤ 0)) ∧
     ((["2.0.0", "1.0.0"] : List String) ≠ [] → ∃ m l1 l2,
       minSemver (VersionsInput.arr ["2.0.0", "1.0.0"]) = Except.ok (some m) ∧
       ["2.0.0", "1.0.0"] = l1 ++ m :: l2 ∧ (∀ x ∈ l1, cmpD x m = 1) ∧
       (∀ x ∈ ["2.0.0", "1.0.0"], 0 ≤ cmpD x m))) :=
  ⟨by decide, claim_C8_max_min_reduction ["2.0.0", "1.0.0"] (by decide)⟩

/-! ## Splitting and joining: inverses used for the grammar characterization -/

theorem splitOnChar_ne_nil (c : Char) : ∀ l : List Char, splitOnChar c l ≠ []
  | [] => by simp [splitOnChar]
  | x :: xs => by
    unfold splitOnChar
    by_cases h : x = c
    · simp [h]
    · rw [if_neg h]
      cases h2 : splitOnChar c xs with
      | nil => simp
      | cons a t => simp

theorem splitOnChar_no_sep {c : Char} : ∀ {l : List Char}, c ∉ l → splitOnChar c l = [l]
  | [], _ => rfl
  | x :: xs, h => by
    have hne : ¬ x = c := fun h2 => h (by simp [h2])
    have hxs : c ∉ xs := fun h2 => h (by simp [h2])
    rw [splitOnChar, if_neg hne, splitOnChar_no_sep hxs]

theorem splitOnChar_append_cons {c : Char} :
    ∀ {x : List Char}, c ∉ x → ∀ (r : List Char),
      splitOnChar c (x ++ c :: r) = x :: splitOnChar c r
  | [], _, r => by
    rw [List.nil_append, splitOnChar, if_pos rfl]
  | a :: xs, h, r => by
    have hne : ¬ a = c := fun h2 => h (by simp [h2])
    have hxs : c ∉ xs := fun h2 => h (by simp [h2])
    rw [List.cons_append, splitOnChar, if_neg hne, splitOnChar_append_cons hxs r]

theorem joinSep_cons_cons (c : Char) (x y : List Char) (t : List (List Char)) :
    joinSep c (x :: y :: t) = x ++ c :: joinSep c (y :: t) := rfl

theorem joinSep_splitOnChar (c : Char) : ∀ l : List Char, joinSep c (splitOnChar c l) = l
  | [] => rfl
  | x :: xs => by
    have ih := joinSep_splitOnChar c xs
    by_cases h : x = c
    · rw [splitOnChar, if_pos h]
      cases h2 : splitOnChar c xs with
      | nil => exact absurd h2 (splitOnChar_ne_nil c xs)
      | cons a t =>
        rw [h2] at ih
        rw [joinSep_cons_cons, List.nil_append, ih, h]
    · rw [splitOnChar, if_neg h]
      cases h2 : splitOnChar c xs with
      | nil => exact absurd h2 (splitOnChar_ne_nil c xs)
      | cons a t =>
        rw [h2] at ih
        cases t with
        | nil =>
          show x :: a = x :: xs
          rw [List.cons.injEq]
          exact ⟨rfl, by simpa using ih⟩
        | cons b t2 =>
          rw [joinSep_cons_cons] at ih
          rw [joinSep_cons_cons, List.cons_append, List.cons.injEq]
          exact ⟨rfl, ih⟩

theorem splitOnChar_joinSep {c : Char} :
    ∀ {ids : List (List Char)}, ids ≠ [] → (∀ i ∈ ids, c ∉ i) →
      splitOnChar c (joinSep c ids) = ids
  | [], h, _ => absurd rfl h
  | [x], _, hm => by
    show splitOnChar c x = [x]
    exact splitOnChar_no_sep (hm x (by simp))
  | x :: y :: t, _, hm => by
    rw [joinSep_cons_cons,
      splitOnChar_append_cons (hm x (by simp)) (joinSep c (y :: t)),
      splitOnChar_joinSep (by simp) (fun i hi => hm i (by simp [hi]))]

theorem breakAtFirst_not_mem {c : Char} : ∀ {l : List Char}, c ∉ l → breakAtFirst c l = none
  | [], _ => rfl
  | x :: xs, h => by
    have hne : ¬ x = c := fun h2 => h (by simp [h2])
    have hxs : c ∉ xs := fun h2 => h (by simp [h2])
    rw [breakAtFirst, if_neg hne, breakAtFirst_not_mem hxs]
    rfl

theorem breakAtFirst_append {c : Char} :
    ∀ {x : List Char}, c ∉ x → ∀ (r : List Char),
      breakAtFirst c (x ++ c :: r) = some (x, r)
  | [], _, r => by
    rw [List.nil_append, breakAtFirst, if_pos rfl]
  | a :: xs, h, r => by
    have hne : ¬ a = c := fun h2 => h (by simp [h2])
    have hxs : c ∉ xs := fun h2 => h (by simp [h2])
    rw [List.cons_append, breakAtFirst, if_neg hne, breakAtFirst_append hxs r]
    rfl

theorem breakAtFirst_eq_some {c : Char} :
    ∀ {l a b : List Char}, breakAtFirst c l = some (a, b) → l = a ++ c :: b ∧ c ∉ a
  | [], a, b, h => by simp [breakAtFirst] at h
  | x :: xs, a, b, h => by
    rw [breakAtFirst] at h
    by_cases h2 : x = c
    · rw [if_pos h2] at h
      simp only [Option.some.injEq, Prod.mk.injEq] at h
      rw [← h.1, ← h.2, List.nil_append, h2]
      exact ⟨rfl, by simp⟩
    · rw [if_neg h2] at h
      cases h3 : breakAtFirst c xs with
      | none =>
        rw [h3] at h
        simp at h
      | some p =>
        rw [h3] at h
        obtain ⟨p1, p2⟩ := p
        have hx := breakAtFirst_eq_some h3
        simp only [Option.map_some', Option.some.injEq, Prod.mk.injEq] at h
        rw [← h.1, ← h.2, List.cons_append, hx.1]
        refine ⟨rfl, ?_⟩
        intro hmem
        rcases List.mem_cons.mp hmem with hmem | hmem
        · exact h2 hmem.symm
        · exact hx.2 hmem

theorem breakAtFirst_eq_none {c : Char} :
    ∀ {l : List Char}, breakAtFirst c l = none → c ∉ l
  | [], _ => by simp
  | x :: xs, h => by
    rw [breakAtFirst] at h
    by_cases h2 : x = c
    · rw [if_pos h2] at h
      simp at h
    · rw [if_neg h2] at h
      intro hmem
      rcases List.mem_cons.mp hmem with hmem | hmem
      · exact h2 hmem.symm
      · cases h3 : breakAtFirst c xs with
        | none => exact breakAtFirst_eq_none h3 hmem
        | some p =>
          rw [h3] at h
          simp at h

/-! ## Decimal rendering and its inverses -/

theorem digitChar_toNat : ∀ d < 10, (digitChar d).toNat = 48 + d := by decide

theorem digitChar_isDigit : ∀ d < 10, isDigitChar (digitChar d) = true := by decide

theorem digitChar_pos : ∀ d < 10, 1 ≤ d → (('1' ≤ digitChar d) && (digitChar d ≤ '9')) = true := by
  decide

theorem isDigitChar_toNat {ch : Char} (h : isDigitChar ch = true) :
    48 ≤ ch.toNat ∧ ch.toNat ≤ 57 := by
  have h2 := (Bool.and_eq_true _ _).mp h
  have hl : ('0' : Char) ≤ ch := of_decide_eq_true h2.1
  have hr : ch ≤ ('9' : Char) := of_decide_eq_true h2.2
  exact ⟨hl, hr⟩

theorem digitChar_sub {ch : Char} (h : isDigitChar ch = true) :
    digitChar (ch.toNat - 48) = ch := by
  obtain ⟨h1, h2⟩ := isDigitChar_toNat h
  unfold digitChar
  rw [show 48 + (ch.toNat - 48) = ch.toNat by omega]
  exact Char.ofNat_toNat ch

theorem foldl_map_digitChar : ∀ (L : List Nat), (∀ d ∈ L, d < 10) → ∀ (acc : Nat),
    List.foldl (fun a c => a * 10 + (c.toNat - 48)) acc (L.map digitChar) =
      acc * 10 ^ L.length + Nat.ofDigits 10 L.reverse
  | [], _, acc => by simp [Nat.ofDigits]
  | d :: L, hL, acc => by
    rw [List.map_cons, List.foldl_cons,
      foldl_map_digitChar L (fun x hx => hL x (by simp [hx])) _]
    rw [digitChar_toNat d (hL d (by simp))]
    rw [show 48 + d - 48 = d by omega]
    rw [List.reverse_cons, Nat.ofDigits_append]
    simp [Nat.ofDigits]
    ring

theorem natOfDigits_renderNat (n : Nat) : natOfDigits (renderNat n) = n := by
  by_cases h : n = 0
  · subst h
    rfl
  · unfold renderNat natOfDigits
    rw [if_neg h,
      foldl_map_digitChar _ (fun d hd => Nat.digits_lt_base (by norm_num)
        (List.mem_reverse.mp hd)) 0,
      List.reverse_reverse]
    simp [Nat.ofDigits_digits]

theorem renderNat_numCore (n : Nat) : numCore (renderNat n) = true := by
  by_cases h : n = 0
  · subst h
    rfl
  · unfold renderNat
    rw [if_neg h]
    rcases List.eq_nil_or_concat (Nat.digits 10 n) with hds | ⟨L, b, hds⟩
    · exact absurd hds (Nat.digits_ne_nil_iff_ne_zero.mpr h)
    · have hdne : Nat.digits 10 n ≠ [] := Nat.digits_ne_nil_iff_ne_zero.mpr h
      have hb : b ≠ 0 := by
        have hlast := Nat.getLast_digit_ne_zero 10 h
        have h0 : (Nat.digits 10 n).getLast? = some b := by
          rw [hds, List.concat_eq_append]
          exact List.getLast?_concat _
        have h1 := List.getLast?_eq_getLast (Nat.digits 10 n) hdne
        rw [h0] at h1
        have hbeq := (Option.some.injEq _ _).mp h1
        intro hb0
        rw [hb0] at hbeq
        exact hlast hbeq.symm
      have hblt : b < 10 := Nat.digits_lt_base (by norm_num) (by rw [hds]; simp)
      rw [hds, List.concat_eq_append, List.reverse_append]
      simp only [List.reverse_singleton, List.singleton_append, List.map_cons]
      unfold numCore
      have hpos := digitChar_pos b hblt (by omega)
      have hall : (L.reverse.map digitChar).all isDigitChar = true := by
        rw [List.all_eq_true]
        intro x hx
        obtain ⟨d, hd, hdx⟩ := List.mem_map.mp hx
        rw [← hdx]
        exact digitChar_isDigit d (Nat.digits_lt_base (by norm_num)
          (by rw [hds]; simp [List.mem_reverse.mp hd]))
      rw [Bool.or_eq_true]
      right
      rw [Bool.and_eq_true]
      exact ⟨hpos, hall⟩

theorem numCore_all_digits : ∀ {ds : List Char}, numCore ds = true →
    ds.all isDigitChar = true
  | [], h => by simp [numCore] at h
  | c :: rest, h => by
    unfold numCore at h
    rw [Bool.or_eq_true] at h
    rcases h with h | h
    · rw [Bool.and_eq_true] at h
      have hc : c = '0' := by
        have := h.1
        simpa using this
      have hr : rest = [] := by
        have := h.2
        simpa using this
      subst hc
      subst hr
      decide
    · rw [Bool.and_eq_true] at h
      rw [List.all_cons, h.2, Bool.and_true]
      rw [Bool.and_eq_true] at h
      have h1 : ('1' : Char) ≤ c := of_decide_eq_true h.1.1
      have h9 : c ≤ ('9' : Char) := of_decide_eq_true h.1.2
      have h1n : (49 : Nat) ≤ c.toNat := h1
      have h9n : c.toNat ≤ 57 := h9
      unfold isDigitChar
      rw [Bool.and_eq_true]
      constructor
      · exact decide_eq_true (show ('0' : Char) ≤ c from show (48 : Nat) ≤ c.toNat by omega)
      · exact decide_eq_true h9

theorem map_digitChar_sub : ∀ {l : List Char}, (∀ x ∈ l, isDigitChar x = true) →
    l.map (fun ch => digitChar (ch.toNat - 48)) = l
  | [], _ => rfl
  | x :: xs, h => by
    rw [List.map_cons, digitChar_sub (h x (by simp)),
      map_digitChar_sub (fun y hy => h y (by simp [hy]))]

theorem renderNat_natOfDigits : ∀ {ds : List Char}, numCore ds = true →
    renderNat (natOfDigits ds) = ds := by
  intro ds h
  cases ds with
  | nil => simp [numCore] at h
  | cons c rest =>
    unfold numCore at h
    rw [Bool.or_eq_true] at h
    rcases h with h | h
    · rw [Bool.and_eq_true] at h
      have hc : c = '0' := by simpa using h.1
      have hr : rest = [] := by simpa using h.2
      subst hc
      subst hr
      rfl
    · rw [Bool.and_eq_true, Bool.and_eq_true] at h
      obtain ⟨⟨h1, h9⟩, hrest⟩ := h
      have h1n : (49 : Nat) ≤ c.toNat := of_decide_eq_true h1
      have h9n : c.toNat ≤ 57 := of_decide_eq_true h9
      -- digit values of the characters
      have hdigits : ∀ x ∈ c :: rest, isDigitChar x = true := by
        intro x hx
        rcases List.mem_cons.mp hx with hx | hx
        · subst hx
          unfold isDigitChar
          rw [Bool.and_eq_true]
          exact ⟨decide_eq_true (show (48 : Nat) ≤ x.toNat by omega),
            decide_eq_true (show x.toNat ≤ 57 by omega)⟩
        · exact (List.all_eq_true.mp hrest) x hx
      have hmap : (c :: rest).map (fun ch => digitChar (ch.toNat - 48)) = c :: rest :=
        map_digitChar_sub hdigits
      have hD10 : ∀ d ∈ (c :: rest).map (fun ch => ch.toNat - 48), d < 10 := by
        intro d hd
        obtain ⟨x, hx, hdx⟩ := List.mem_map.mp hd
        obtain ⟨hx1, hx2⟩ := isDigitChar_toNat (hdigits x hx)
        omega
      have hmapD : ((c :: rest).map (fun ch => ch.toNat - 48)).map digitChar = c :: rest := by
        rw [List.map_map]
        exact hmap
      have hfold : List.foldl (fun a ch => a * 10 + (ch.toNat - 48)) 0
            (((c :: rest).map (fun ch => ch.toNat - 48)).map digitChar) =
          0 * 10 ^ ((c :: rest).map (fun ch => ch.toNat - 48)).length +
            Nat.ofDigits 10 ((c :: rest).map (fun ch => ch.toNat - 48)).reverse :=
        foldl_map_digitChar _ hD10 0
      rw [hmapD] at hfold
      have hnat : natOfDigits (c :: rest) =
          Nat.ofDigits 10 ((c :: rest).map (fun ch => ch.toNat - 48)).reverse := by
        unfold natOfDigits
        rw [hfold]
        simp
      have hrevne : ((c :: rest).map (fun ch => ch.toNat - 48)).reverse ≠ [] := by simp
      have hlastD : ((c :: rest).map (fun ch => ch.toNat - 48)).reverse.getLast hrevne ≠ 0 := by
        have hform : ((c :: rest).map (fun ch => ch.toNat - 48)).reverse =
            (rest.map (fun ch => ch.toNat - 48)).reverse ++ [c.toNat - 48] := by
          simp
        have h0 : ((c :: rest).map (fun ch => ch.toNat - 48)).reverse.getLast? =
            some (c.toNat - 48) := by
          rw [hform]
          exact List.getLast?_concat _
        have h1 := List.getLast?_eq_getLast _ hrevne
        rw [h0] at h1
        rw [← (Option.some.injEq _ _).mp h1]
        omega
      have hdig : Nat.digits 10 (natOfDigits (c :: rest)) =
          ((c :: rest).map (fun ch => ch.toNat - 48)).reverse := by
        rw [hnat]
        exact Nat.digits_ofDigits 10 (by norm_num) _
          (fun d hd => hD10 d (List.mem_reverse.mp hd)) (fun _ => hlastD)
      have hn0 : natOfDigits (c :: rest) ≠ 0 := by
        intro h0
        rw [h0] at hdig
        exact hrevne (by simpa using hdig.symm)
      unfold renderNat
      rw [if_neg hn0, hdig, List.reverse_reverse, hmapD]

/-! ## Character classes of the grammar components -/

theorem isIdentChar_of_digit {c : Char} (h : isDigitChar c = true) : isIdentChar c = true := by
  simp [isIdentChar, h]

theorem digit_ne_dot {c : Char} (h : isDigitChar c = true) : c ≠ '.' := by
  intro h2
  rw [h2] at h
  exact absurd h (by decide)

theorem digit_ne_hyphen {c : Char} (h : isDigitChar c = true) : c ≠ '-' := by
  intro h2
  rw [h2] at h
  exact absurd h (by decide)

theorem digit_ne_plus {c : Char} (h : isDigitChar c = true) : c ≠ '+' := by
  intro h2
  rw [h2] at h
  exact absurd h (by decide)

theorem ident_ne_dot {c : Char} (h : isIdentChar c = true) : c ≠ '.' := by
  intro h2
  rw [h2] at h
  exact absurd h (by decide)

theorem ident_ne_plus {c : Char} (h : isIdentChar c = true) : c ≠ '+' := by
  intro h2
  rw [h2] at h
  exact absurd h (by decide)

theorem ident_not_ws {c : Char} (h : isIdentChar c = true) : jsWhitespaceChar c = false := by
  cases hw : jsWhitespaceChar c with
  | false => rfl
  | true =>
    exfalso
    simp only [jsWhitespaceChar, Bool.or_eq_true, decide_eq_true_eq] at hw
    rcases hw with ((((((hw | hw) | hw) | hw) | hw) | hw) | hw) | hw <;>
      rw [hw] at h <;> exact absurd h (by decide)

theorem preIdOk_ident {s : List Char} (h : preIdOk s = true) :
    ∀ c ∈ s, isIdentChar c = true := by
  intro c hc
  unfold preIdOk at h
  rw [Bool.or_eq_true] at h
  rcases h with h | h
  · exact isIdentChar_of_digit ((List.all_eq_true.mp (numCore_all_digits h)) c hc)
  · rw [Bool.and_eq_true, Bool.and_eq_true] at h
    exact (List.all_eq_true.mp h.1.2) c hc

theorem buildIdOk_ident {s : List Char} (h : buildIdOk s = true) :
    ∀ c ∈ s, isIdentChar c = true := by
  intro c hc
  unfold buildIdOk at h
  rw [Bool.and_eq_true] at h
  exact (List.all_eq_true.mp h.2) c hc

theorem renderNat_digits (n : Nat) : ∀ c ∈ renderNat n, isDigitChar c = true :=
  fun c hc => (List.all_eq_true.mp (numCore_all_digits (renderNat_numCore n))) c hc

theorem mem_joinSep {c : Char} {x : Char} :
    ∀ {ids : List (List Char)}, x ∈ joinSep c ids → x = c ∨ ∃ i ∈ ids, x ∈ i
  | [], h => by simp [joinSep] at h
  | [y], h => Or.inr ⟨y, by simp, h⟩
  | y :: z :: t, h => by
    rw [joinSep_cons_cons] at h
    rcases List.mem_append.mp h with h | h
    · exact Or.inr ⟨y, by simp, h⟩
    · rcases List.mem_cons.mp h with h | h
      · exact Or.inl h
      · rcases mem_joinSep h with h | ⟨i, hi, hxi⟩
        · exact Or.inl h
        · exact Or.inr ⟨i, by simp [hi], hxi⟩

theorem preIdOk_no_dot {s : List Char} (h : preIdOk s = true) : '.' ∉ s :=
  fun hmem => ident_ne_dot (preIdOk_ident h _ hmem) rfl

theorem buildIdOk_no_dot {s : List Char} (h : buildIdOk s = true) : '.' ∉ s :=
  fun hmem => ident_ne_dot (buildIdOk_ident h _ hmem) rfl

theorem renderNat_no_dot (n : Nat) : '.' ∉ renderNat n :=
  fun hmem => digit_ne_dot (renderNat_digits n _ hmem) rfl

theorem renderNat_no_hyphen (n : Nat) : '-' ∉ renderNat n :=
  fun hmem => digit_ne_hyphen (renderNat_digits n _ hmem) rfl

theorem renderNat_no_plus (n : Nat) : '+' ∉ renderNat n :=
  fun hmem => digit_ne_plus (renderNat_digits n _ hmem) rfl

/-! ## The matcher accepts every rendered version (soundness of the renderer) -/

theorem mmp_no_hyphen (mj mn pt : Nat) :
    '-' ∉ renderNat mj ++ ('.' :: renderNat mn) ++ ('.' :: renderNat pt) := by
  intro h
  simp only [List.mem_append, List.mem_cons] at h
  rcases h with (h | h | h) | h | h
  · exact renderNat_no_hyphen mj h
  · exact absurd h (by decide)
  · exact renderNat_no_hyphen mn h
  · exact absurd h (by decide)
  · exact renderNat_no_hyphen pt h

theorem mmp_no_plus (mj mn pt : Nat) :
    '+' ∉ renderNat mj ++ ('.' :: renderNat mn) ++ ('.' :: renderNat pt) := by
  intro h
  simp only [List.mem_append, List.mem_cons] at h
  rcases h with (h | h | h) | h | h
  · exact renderNat_no_plus mj h
  · exact absurd h (by decide)
  · exact renderNat_no_plus mn h
  · exact absurd h (by decide)
  · exact renderNat_no_plus pt h

theorem checkMMP_render (mj mn pt : Nat) :
    checkMMP (renderNat mj ++ ('.' :: renderNat mn) ++ ('.' :: renderNat pt)) =
      some (renderNat mj, renderNat mn, renderNat pt) := by
  have hsplit : splitOnChar '.' (renderNat mj ++ ('.' :: renderNat mn) ++ ('.' :: renderNat pt)) =
      [renderNat mj, renderNat mn, renderNat pt] := by
    rw [List.append_assoc, List.cons_append,
      splitOnChar_append_cons (renderNat_no_dot mj),
      splitOnChar_append_cons (renderNat_no_dot mn),
      splitOnChar_no_sep (renderNat_no_dot pt)]
  unfold checkMMP
  rw [hsplit]
  show (if numCore (renderNat mj) && numCore (renderNat mn) && numCore (renderNat pt) then
    some (renderNat mj, renderNat mn, renderNat pt) else none) = _
  rw [if_pos (by simp [renderNat_numCore])]

theorem semverMatch_render (mj mn pt : Nat) (pre bld : List (List Char))
    (hpre : ∀ p ∈ pre, preIdOk p = true) (hbld : ∀ b ∈ bld, buildIdOk b = true) :
    semverMatch (renderChars mj mn pt pre bld) =
      some (renderNat mj, renderNat mn, renderNat pt, pre, bld) := by
  have hPreNoPlus : ∀ x ∈ (if pre.isEmpty then ([] : List Char)
      else '-' :: joinSep '.' pre), x ≠ '+' := by
    intro x hx
    cases pre with
    | nil => simp at hx
    | cons p ps =>
      simp only [List.isEmpty_cons, Bool.false_eq_true, if_false] at hx
      rcases List.mem_cons.mp hx with hx | hx
      · rw [hx]
        decide
      · rcases mem_joinSep hx with hx | ⟨i, hi, hxi⟩
        · rw [hx]
          decide
        · exact ident_ne_plus (preIdOk_ident (hpre i hi) x hxi)
  have hCoreNoPlus : '+' ∉ renderNat mj ++ ('.' :: renderNat mn) ++ ('.' :: renderNat pt) ++
      (if pre.isEmpty then ([] : List Char) else '-' :: joinSep '.' pre) := by
    intro h
    rcases List.mem_append.mp h with h | h
    · exact mmp_no_plus mj mn pt h
    · exact hPreNoPlus '+' h rfl
  have hSplitPreCore : splitPre (renderNat mj ++ ('.' :: renderNat mn) ++ ('.' :: renderNat pt) ++
      (if pre.isEmpty then ([] : List Char) else '-' :: joinSep '.' pre)) =
      (renderNat mj ++ ('.' :: renderNat mn) ++ ('.' :: renderNat pt),
        if pre.isEmpty then none else some (joinSep '.' pre)) := by
    cases pre with
    | nil =>
      simp only [List.isEmpty_nil, if_true, List.append_nil]
      unfold splitPre
      rw [breakAtFirst_not_mem (mmp_no_hyphen mj mn pt)]
    | cons p ps =>
      simp only [List.isEmpty_cons, Bool.false_eq_true, if_false]
      unfold splitPre
      rw [breakAtFirst_append (mmp_no_hyphen mj mn pt)]
  have hCheckPre : checkPre (if pre.isEmpty then none else some (joinSep '.' pre)) = some pre := by
    cases pre with
    | nil => rfl
    | cons p ps =>
      simp only [List.isEmpty_cons, Bool.false_eq_true, if_false]
      show (if (splitOnChar '.' (joinSep '.' (p :: ps))).all preIdOk = true then
        some (splitOnChar '.' (joinSep '.' (p :: ps))) else none) = some (p :: ps)
      rw [splitOnChar_joinSep (by simp) (fun i hi => preIdOk_no_dot (hpre i hi))]
      rw [if_pos (List.all_eq_true.mpr hpre)]
  have hCheckBld : checkBuild (if bld.isEmpty then none else some (joinSep '.' bld)) =
      some bld := by
    cases bld with
    | nil => rfl
    | cons b bs =>
      simp only [List.isEmpty_cons, Bool.false_eq_true, if_false]
      show (if (splitOnChar '.' (joinSep '.' (b :: bs))).all buildIdOk = true then
        some (splitOnChar '.' (joinSep '.' (b :: bs))) else none) = some (b :: bs)
      rw [splitOnChar_joinSep (by simp) (fun i hi => buildIdOk_no_dot (hbld i hi))]
      rw [if_pos (List.all_eq_true.mpr hbld)]
  have hSplitBld : splitBuild (renderChars mj mn pt pre bld) =
      (renderNat mj ++ ('.' :: renderNat mn) ++ ('.' :: renderNat pt) ++
        (if pre.isEmpty then ([] : List Char) else '-' :: joinSep '.' pre),
        if bld.isEmpty then none else some (joinSep '.' bld)) := by
    unfold renderChars
    cases bld with
    | nil =>
      simp only [List.isEmpty_nil, if_true, List.append_nil]
      unfold splitBuild
      rw [breakAtFirst_not_mem hCoreNoPlus]
    | cons b bs =>
      simp only [List.isEmpty_cons, Bool.false_eq_true, if_false]
      unfold splitBuild
      rw [breakAtFirst_append hCoreNoPlus]
  unfold semverMatch
  simp only [hSplitBld, hSplitPreCore, checkMMP_render, hCheckPre, hCheckBld]

/-! ## Every accepted string is a rendered version (completeness) -/

theorem checkMMP_some {m a b c : List Char} (h : checkMMP m = some (a, b, c)) :
    numCore a = true ∧ numCore b = true ∧ numCore c = true ∧
      m = a ++ ('.' :: b) ++ ('.' :: c) := by
  unfold checkMMP at h
  cases hs : splitOnChar '.' m with
  | nil => rw [hs] at h; simp at h
  | cons x t1 =>
    cases t1 with
    | nil => rw [hs] at h; simp at h
    | cons y t2 =>
      cases t2 with
      | nil => rw [hs] at h; simp at h
      | cons z t3 =>
        cases t3 with
        | nil =>
          rw [hs] at h
          have h2 : (if (numCore x && numCore y && numCore z) = true then
              some (x, y, z) else (none : Option (List Char × List Char × List Char))) =
              some (a, b, c) := h
          by_cases hc : (numCore x && numCore y && numCore z) = true
          · rw [if_pos hc] at h2
            simp only [Option.some.injEq, Prod.mk.injEq] at h2
            obtain ⟨h1, h2, h3⟩ := h2
            subst h1
            subst h2
            subst h3
            rw [Bool.and_eq_true, Bool.and_eq_true] at hc
            refine ⟨hc.1.1, hc.1.2, hc.2, ?_⟩
            have hj := joinSep_splitOnChar '.' m
            rw [hs] at hj
            rw [← hj]
            simp [joinSep, List.append_assoc]
          · rw [if_neg hc] at h2
            simp at h2
        | cons w t4 => rw [hs] at h; simp at h

theorem checkPre_some {o : Option (List Char)} {pre : List (List Char)}
    (h : checkPre o = some pre) :
    (o = none ∧ pre = []) ∨
      (pre ≠ [] ∧ (∀ i ∈ pre, preIdOk i = true) ∧ o = some (joinSep '.' pre)) := by
  cases o with
  | none =>
    left
    refine ⟨rfl, ?_⟩
    have h2 : (some [] : Option (List (List Char))) = some pre := h
    exact ((Option.some.injEq _ _).mp h2).symm
  | some p =>
    right
    have h2 : (if (splitOnChar '.' p).all preIdOk = true then
        some (splitOnChar '.' p) else none) = some pre := h
    by_cases hc : (splitOnChar '.' p).all preIdOk = true
    · rw [if_pos hc] at h2
      have hpre : splitOnChar '.' p = pre := (Option.some.injEq _ _).mp h2
      subst hpre
      refine ⟨splitOnChar_ne_nil '.' p, List.all_eq_true.mp hc, ?_⟩
      rw [joinSep_splitOnChar '.' p]
    · rw [if_neg hc] at h2
      simp at h2

theorem checkBuild_some {o : Option (List Char)} {bld : List (List Char)}
    (h : checkBuild o = some bld) :
    (o = none ∧ bld = []) ∨
      (bld ≠ [] ∧ (∀ i ∈ bld, buildIdOk i = true) ∧ o = some (joinSep '.' bld)) := by
  cases o with
  | none =>
    left
    refine ⟨rfl, ?_⟩
    have h2 : (some [] : Option (List (List Char))) = some bld := h
    exact ((Option.some.injEq _ _).mp h2).symm
  | some p =>
    right
    have h2 : (if (splitOnChar '.' p).all buildIdOk = true then
        some (splitOnChar '.' p) else none) = some bld := h
    by_cases hc : (splitOnChar '.' p).all buildIdOk = true
    · rw [if_pos hc] at h2
      have hbld : splitOnChar '.' p = bld := (Option.some.injEq _ _).mp h2
      subst hbld
      refine ⟨splitOnChar_ne_nil '.' p, List.all_eq_true.mp hc, ?_⟩
      rw [joinSep_splitOnChar '.' p]
    · rw [if_neg hc] at h2
      simp at h2

theorem splitBuild_eq {s core : List Char} {o : Option (List Char)}
    (h : splitBuild s = (core, o)) :
    (o = none ∧ core = s) ∨ (∃ r, o = some r ∧ s = core ++ '+' :: r ∧ '+' ∉ core) := by
  unfold splitBuild at h
  cases hb : breakAtFirst '+' s with
  | none =>
    rw [hb] at h
    simp only [Prod.mk.injEq] at h
    exact Or.inl ⟨h.2.symm, h.1.symm⟩
  | some p =>
    obtain ⟨a, b⟩ := p
    rw [hb] at h
    simp only [Prod.mk.injEq] at h
    obtain ⟨he, hx⟩ := breakAtFirst_eq_some hb
    refine Or.inr ⟨b, h.2.symm, ?_, ?_⟩
    · rw [← h.1]
      exact he
    · rw [← h.1]
      exact hx

theorem splitPre_eq {s core : List Char} {o : Option (List Char)}
    (h : splitPre s = (core, o)) :
    (o = none ∧ core = s) ∨ (∃ r, o = some r ∧ s = core ++ '-' :: r ∧ '-' ∉ core) := by
  unfold splitPre at h
  cases hb : breakAtFirst '-' s with
  | none =>
    rw [hb] at h
    simp only [Prod.mk.injEq] at h
    exact Or.inl ⟨h.2.symm, h.1.symm⟩
  | some p =>
    obtain ⟨a, b⟩ := p
    rw [hb] at h
    simp only [Prod.mk.injEq] at h
    obtain ⟨he, hx⟩ := breakAtFirst_eq_some hb
    refine Or.inr ⟨b, h.2.symm, ?_, ?_⟩
    · rw [← h.1]
      exact he
    · rw [← h.1]
      exact hx

theorem semverMatch_some {s ma mi pa : List Char} {pre bld : List (List Char)}
    (h : semverMatch s = some (ma, mi, pa, pre, bld)) :
    numCore ma = true ∧ numCore mi = true ∧ numCore pa = true ∧
    (∀ p ∈ pre, preIdOk p = true) ∧ (∀ b ∈ bld, buildIdOk b = true) ∧
    s = renderChars (natOfDigits ma) (natOfDigits mi) (natOfDigits pa) pre bld := by
  unfold semverMatch at h
  rcases hsb : splitBuild s with ⟨core, obld⟩
  rw [hsb] at h
  dsimp only at h
  rcases hsp : splitPre core with ⟨mmp, opre⟩
  rw [hsp] at h
  dsimp only at h
  cases hm : checkMMP mmp with
  | none => rw [hm] at h; simp at h
  | some trip =>
    obtain ⟨x, y, z⟩ := trip
    rw [hm] at h
    cases hp : checkPre opre with
    | none => rw [hp] at h; simp at h
    | some pre2 =>
      rw [hp] at h
      cases hb : checkBuild obld with
      | none => rw [hb] at h; simp at h
      | some bld2 =>
        rw [hb] at h
        simp only [Option.some.injEq, Prod.mk.injEq] at h
        obtain ⟨hx, hy, hz, hpre2, hbld2⟩ := h
        subst hx
        subst hy
        subst hz
        rw [← hpre2, ← hbld2]
        obtain ⟨hnx, hny, hnz, hmmp⟩ := checkMMP_some hm
        have hrx := renderNat_natOfDigits hnx
        have hry := renderNat_natOfDigits hny
        have hrz := renderNat_natOfDigits hnz
        rcases checkPre_some hp with ⟨hop, hpnil⟩ | ⟨hpne, hpok, hop⟩ <;>
          rcases checkBuild_some hb with ⟨hob, hbnil⟩ | ⟨hbne, hbok, hob⟩
        · subst hpnil
          subst hbnil
          refine ⟨hnx, hny, hnz, by simp, by simp, ?_⟩
          rcases splitBuild_eq hsb with ⟨_, hcore⟩ | ⟨r, hro, _, _⟩
          · rcases splitPre_eq hsp with ⟨_, hmmp2⟩ | ⟨r, hro, _, _⟩
            · unfold renderChars
              simp only [List.isEmpty_nil, if_true, List.append_nil]
              rw [← hcore, ← hmmp2, hmmp, hrx, hry, hrz]
            · rw [hro] at hop
              simp at hop
          · rw [hro] at hob
            simp at hob
        · subst hpnil
          refine ⟨hnx, hny, hnz, by simp, hbok, ?_⟩
          rcases splitBuild_eq hsb with ⟨hro, _⟩ | ⟨r, hro, hs2, _⟩
          · rw [hro] at hob
            simp at hob
          · rcases splitPre_eq hsp with ⟨_, hmmp2⟩ | ⟨r2, hro2, _, _⟩
            · unfold renderChars
              have hbemp : bld2.isEmpty = false := by
                cases hbm : bld2 with
                | nil => exact absurd hbm hbne
                | cons q qs => rfl
              rw [hbemp]
              simp only [List.isEmpty_nil, if_true, Bool.false_eq_true, if_false,
                List.append_nil]
              rw [hs2, ← hmmp2, hmmp, hrx, hry, hrz]
              rw [hro] at hob
              have : r = joinSep '.' bld2 := by
                have h3 := (Option.some.injEq _ _).mp hob
                exact h3
              rw [this]
            · rw [hro2] at hop
              simp at hop
        · subst hbnil
          refine ⟨hnx, hny, hnz, hpok, by simp, ?_⟩
          rcases splitBuild_eq hsb with ⟨_, hcore⟩ | ⟨r, hro, _, _⟩
          · rcases splitPre_eq hsp with ⟨hro2, _⟩ | ⟨r2, hro2, hs2, _⟩
            · rw [hro2] at hop
              simp at hop
            · unfold renderChars
              have hpemp : pre2.isEmpty = false := by
                cases hpm : pre2 with
                | nil => exact absurd hpm hpne
                | cons q qs => rfl
              rw [hpemp]
              simp only [List.isEmpty_nil, if_true, Bool.false_eq_true, if_false,
                List.append_nil]
              rw [← hcore, hs2, hmmp, hrx, hry, hrz]
              rw [hro2] at hop
              have : r2 = joinSep '.' pre2 := (Option.some.injEq _ _).mp hop
              rw [this]
          · rw [hro] at hob
            simp at hob
        · refine ⟨hnx, hny, hnz, hpok, hbok, ?_⟩
          rcases splitBuild_eq hsb with ⟨hro, _⟩ | ⟨r, hro, hs2, _⟩
          · rw [hro] at hob
            simp at hob
          · rcases splitPre_eq hsp with ⟨hro2, _⟩ | ⟨r2, hro2, hs3, _⟩
            · rw [hro2] at hop
              simp at hop
            · unfold renderChars
              have hbemp : bld2.isEmpty = false := by
                cases hbm : bld2 with
                | nil => exact absurd hbm hbne
                | cons q qs => rfl
              have hpemp : pre2.isEmpty = false := by
                cases hpm : pre2 with
                | nil => exact absurd hpm hpne
                | cons q qs => rfl
              rw [hbemp, hpemp]
              simp only [Bool.false_eq_true, if_false]
              rw [hs2, hs3, hmmp, hrx, hry, hrz]
              rw [hro] at hob
              rw [hro2] at hop
              rw [(Option.some.injEq _ _).mp hob, (Option.some.injEq _ _).mp hop]

/-! ## Rendered versions survive trimming and v-stripping unchanged -/

theorem dropWhile_eq_self {p : Char → Bool} {l : List Char}
    (h : ∀ c ∈ l, p c = false) : l.dropWhile p = l := by
  cases l with
  | nil => rfl
  | cons c rest =>
    rw [List.dropWhile_cons, h c (by simp)]
    simp

theorem jsTrim_eq_self {l : List Char} (h : ∀ c ∈ l, jsWhitespaceChar c = false) :
    jsTrim l = l := by
  unfold jsTrim
  rw [dropWhile_eq_self h,
    dropWhile_eq_self (fun c hc => h c (List.mem_reverse.mp hc)), List.reverse_reverse]

theorem dot_not_ws : jsWhitespaceChar '.' = false := by decide

theorem renderChars_not_ws (mj mn pt : Nat) (pre bld : List (List Char))
    (hpre : ∀ p ∈ pre, preIdOk p = true) (hbld : ∀ b ∈ bld, buildIdOk b = true) :
    ∀ c ∈ renderChars mj mn pt pre bld, jsWhitespaceChar c = false := by
  intro c hc
  unfold renderChars at hc
  simp only [List.mem_append, List.mem_cons] at hc
  rcases hc with ((((hc | hc | hc) | hc | hc) | hc) | hc)
  · exact ident_not_ws (isIdentChar_of_digit (renderNat_digits mj c hc))
  · rw [hc]
    decide
  · exact ident_not_ws (isIdentChar_of_digit (renderNat_digits mn c hc))
  · rw [hc]
    decide
  · exact ident_not_ws (isIdentChar_of_digit (renderNat_digits pt c hc))
  · cases pre with
    | nil => simp at hc
    | cons p ps =>
      simp only [List.isEmpty_cons, Bool.false_eq_true, if_false] at hc
      rcases List.mem_cons.mp hc with hc | hc
      · rw [hc]
        decide
      · rcases mem_joinSep hc with hc | ⟨i, hi, hci⟩
        · rw [hc]
          decide
        · exact ident_not_ws (preIdOk_ident (hpre i hi) c hci)
  · cases bld with
    | nil => simp at hc
    | cons b bs =>
      simp only [List.isEmpty_cons, Bool.false_eq_true, if_false] at hc
      rcases List.mem_cons.mp hc with hc | hc
      · rw [hc]
        decide
      · rcases mem_joinSep hc with hc | ⟨i, hi, hci⟩
        · rw [hc]
          decide
        · exact ident_not_ws (buildIdOk_ident (hbld i hi) c hci)

theorem numCore_head {c : Char} {rest : List Char} (h : numCore (c :: rest) = true) :
    isDigitChar c = true := by
  unfold numCore at h
  rw [Bool.or_eq_true] at h
  rcases h with h | h
  · rw [Bool.and_eq_true] at h
    have h1 : c = '0' := by simpa using h.1
    rw [h1]
    decide
  · rw [Bool.and_eq_true] at h
    have h1 := h.1
    rw [Bool.and_eq_true] at h1
    have h1n : (49 : Nat) ≤ c.toNat := of_decide_eq_true h1.1
    have h9n : c.toNat ≤ 57 := of_decide_eq_true h1.2
    unfold isDigitChar
    rw [Bool.and_eq_true]
    exact ⟨decide_eq_true (show (48 : Nat) ≤ c.toNat by omega),
      decide_eq_true (show c.toNat ≤ 57 by omega)⟩

theorem digit_ne_v {c : Char} (h : isDigitChar c = true) : (c = 'v' || c = 'V') = false := by
  obtain ⟨h1, h2⟩ := isDigitChar_toNat h
  rw [Bool.or_eq_false_iff]
  constructor
  · rw [decide_eq_false_iff_not]
    intro h3
    rw [h3] at h1 h2
    simp at h2
  · rw [decide_eq_false_iff_not]
    intro h3
    rw [h3] at h1 h2
    simp at h2

theorem renderNat_shape (n : Nat) :
    ∃ c cs, renderNat n = c :: cs ∧ isDigitChar c = true := by
  cases hr : renderNat n with
  | nil =>
    have := renderNat_numCore n
    rw [hr] at this
    simp [numCore] at this
  | cons c cs =>
    have := renderNat_numCore n
    rw [hr] at this
    exact ⟨c, cs, rfl, numCore_head this⟩

theorem stripV_cons (c : Char) (rest : List Char) :
    stripV (c :: rest) = if (c = 'v' || c = 'V') = true then rest else c :: rest := rfl

theorem cleanChars_renderChars (mj mn pt : Nat) (pre bld : List (List Char))
    (hpre : ∀ p ∈ pre, preIdOk p = true) (hbld : ∀ b ∈ bld, buildIdOk b = true) :
    cleanChars (String.mk (renderChars mj mn pt pre bld)) =
      renderChars mj mn pt pre bld := by
  unfold cleanChars
  show stripV (jsTrim (renderChars mj mn pt pre bld)) = _
  rw [jsTrim_eq_self (renderChars_not_ws mj mn pt pre bld hpre hbld)]
  obtain ⟨c, cs, hshape, hdig⟩ := renderNat_shape mj
  unfold renderChars
  rw [hshape]
  rw [List.cons_append, List.cons_append, List.cons_append, List.cons_append,
    stripV_cons, digit_ne_v hdig]
  simp

theorem mk_data : ∀ s : String, String.mk s.data = s
  | ⟨_⟩ => rfl

theorem map_mk_data : ∀ l : List String, (l.map String.data).map String.mk = l
  | [] => rfl
  | s :: t => by
    rw [List.map_cons, List.map_cons, mk_data, map_mk_data t]

/-- Parsing a rendered version recovers every component exactly. -/
theorem parseSemver_render (mj mn pt : Nat) (pre bld : List String)
    (hpre : ∀ p ∈ pre, preIdOk p.data = true) (hbld : ∀ b ∈ bld, buildIdOk b.data = true) :
    parseSemver (renderVersion mj mn pt pre bld) =
      some { major := mj, minor := mn, patch := pt, prerelease := pre, build := bld,
             raw := renderVersion mj mn pt pre bld } := by
  have hpre2 : ∀ p ∈ pre.map String.data, preIdOk p = true := by
    intro p hp
    obtain ⟨q, hq, hqp⟩ := List.mem_map.mp hp
    rw [← hqp]
    exact hpre q hq
  have hbld2 : ∀ b ∈ bld.map String.data, buildIdOk b = true := by
    intro b hb
    obtain ⟨q, hq, hqb⟩ := List.mem_map.mp hb
    rw [← hqb]
    exact hbld q hq
  unfold parseSemver renderVersion
  rw [cleanChars_renderChars mj mn pt _ _ hpre2 hbld2]
  simp only [semverMatch_render mj mn pt _ _ hpre2 hbld2, natOfDigits_renderNat,
    map_mk_data]

/-! ## Claim C5 -/

/-- Claim C5: parseSemver succeeds exactly on strings whose cleaned form
(trimmed, one optional leading v stripped) is the canonical notation of some
version: MAJOR.MINOR.PATCH with optional pre-release and build groups of valid
identifiers, leading zeros excluded by the digit grammar of the renderer.
Non-strings and the quoted bad examples all fail, and 1.0.0 parses. -/
theorem claim_C5_parse_exactly_grammar :
    (∀ s : String, (parseSemver s).isSome = true ↔
      ∃ mj mn pt pre bld,
        (∀ p ∈ pre, preIdOk p = true) ∧ (∀ b ∈ bld, buildIdOk b = true) ∧
        cleanChars s = renderChars mj mn pt pre bld) ∧
    parseSemver "1.0.0" ≠ none ∧
    parseSemver "01.0.0" = none ∧
    parseSemver "1.0.0-01" = none ∧
    parseSemver "abc" = none ∧
    parseSemver "1.0" = none ∧
    parseSemverJS (JSValue.num 42) = none ∧
    (∀ j : JSValue, (∀ t, j ≠ JSValue.str t) → parseSemverJS j = none) := by
  refine ⟨?_, by decide, by decide, by decide, by decide, by decide, rfl, ?_⟩
  · intro s
    constructor
    · intro h
      unfold parseSemver at h
      dsimp only at h
      cases hm : semverMatch (cleanChars s) with
      | none =>
        rw [hm] at h
        simp at h
      | some caps =>
        obtain ⟨ma, mi, pa, pre, bld⟩ := caps
        obtain ⟨hnx, hny, hnz, hpok, hbok, hs⟩ := semverMatch_some hm
        exact ⟨natOfDigits ma, natOfDigits mi, natOfDigits pa, pre, bld, hpok, hbok, hs⟩
    · rintro ⟨mj, mn, pt, pre, bld, hpok, hbok, hs⟩
      unfold parseSemver
      dsimp only
      rw [hs, semverMatch_render mj mn pt pre bld hpok hbok]
      rfl
  · intro j hj
    cases j with
    | str t => exact absurd rfl (hj t)
    | num n => rfl
    | boolean b => rfl
    | nullValue => rfl
    | undefinedValue => rfl

/-! ## Claim C6 -/

/-- Claim C6: for every valid combination of components, parseSemver
round-trips them exactly: major, minor and patch are the parsed integers,
prerelease and build are the identifier sequences (empty when the group is
absent), and raw is the normalized input; and a string whose cleaned form does
not match the pattern produces no Version at all. -/
theorem claim_C6_parse_round_trip (mj mn pt : Nat) (pre bld : List String)
    (hpre : ∀ p ∈ pre, preIdOk p.data = true)
    (hbld : ∀ b ∈ bld, buildIdOk b.data = true) :
    parseSemver (renderVersion mj mn pt pre bld) =
      some { major := mj, minor := mn, patch := pt, prerelease := pre, build := bld,
             raw := renderVersion mj mn pt pre bld } ∧
    (∀ s : String, semverMatch (cleanChars s) = none → parseSemver s = none) := by
  refine ⟨parseSemver_render mj mn pt pre bld hpre hbld, ?_⟩
  intro s hs
  unfold parseSemver
  dsimp only
  rw [hs]

/-- Witness for C6 at version 1.2.3 with pre-release alpha.7 and build b01. -/
theorem claim_C6_witness :
    (∀ p ∈ (["alpha", "7"] : List String), preIdOk p.data = true) ∧
    (parseSemver (renderVersion 1 2 3 ["alpha", "7"] ["b01"]) =
      some { major := 1, minor := 2, patch := 3, prerelease := ["alpha", "7"],
             build := ["b01"], raw := renderVersion 1 2 3 ["alpha", "7"] ["b01"] } ∧
     (∀ s : String, semverMatch (cleanChars s) = none → parseSemver s = none)) :=
  ⟨by decide,
    claim_C6_parse_round_trip 1 2 3 ["alpha", "7"] ["b01"] (by decide) (by decide)⟩

end SharedFiles
